import Mathlib

/-!
Verification of SCRAM (Command-line Risk Analysis Multi-tool) core claims.

The development shallowly embeds the parts of the repository that the
claims concern: the PDAG (propagation DAG) of Boolean gates with its
preprocessor rewrite passes, the probability calculators (exact via the
product measure on assignments, rare-event, MCUB), the MEF element and
attribute machinery, model serialization, and the GUI launcher's exit
codes.
-/

namespace Scram

/-! ## PDAG: the Boolean gate DAG of a fault tree

Modelled from the spec: the analysis engine sources are not in the
snapshot; the gate connectives and the preprocessor passes are modelled
from the spec's data model (connectives AND, OR, ATLEAST(k), XOR, NOT,
NAND, NOR, NULL, IMPLY, IFF, CONSTANT) and its description of the
rewrite passes. -/

/-- A PDAG node: a Boolean gate over basic events (variables). -/
inductive Pdag where
  | var (i : Nat)
  | tru
  | fls
  | notg (g : Pdag)
  | andg (args : List Pdag)
  | org (args : List Pdag)
  | xorg (a b : Pdag)
  | nandg (args : List Pdag)
  | norg (args : List Pdag)
  | implyg (a b : Pdag)
  | iffg (a b : Pdag)
  | atleast (k : Nat) (args : List Pdag)
  | nullg (g : Pdag)

mutual

/-- Evaluate a PDAG under an assignment of basic-event truth values. -/
def Pdag.eval (a : Nat → Bool) : Pdag → Bool
  | .var i => a i
  | .tru => true
  | .fls => false
  | .notg g => !(g.eval a)
  | .andg args => Pdag.evalAll a args
  | .org args => Pdag.evalAny a args
  | .xorg g h => xor (g.eval a) (h.eval a)
  | .nandg args => !(Pdag.evalAll a args)
  | .norg args => !(Pdag.evalAny a args)
  | .implyg g h => !(g.eval a) || h.eval a
  | .iffg g h => g.eval a == h.eval a
  | .atleast k args => decide (k ≤ Pdag.countTrue a args)
  | .nullg g => g.eval a

/-- Conjunction of the evaluations of a list of arguments. -/
def Pdag.evalAll (a : Nat → Bool) : List Pdag → Bool
  | [] => true
  | g :: gs => g.eval a && Pdag.evalAll a gs

/-- Disjunction of the evaluations of a list of arguments. -/
def Pdag.evalAny (a : Nat → Bool) : List Pdag → Bool
  | [] => false
  | g :: gs => g.eval a || Pdag.evalAny a gs

/-- Number of arguments evaluating to true (for ATLEAST gates). -/
def Pdag.countTrue (a : Nat → Bool) : List Pdag → Nat
  | [] => 0
  | g :: gs => (if g.eval a then 1 else 0) + Pdag.countTrue a gs

end

/-- Recognizer for the TRUE constant node. -/
def Pdag.isTru : Pdag → Bool
  | .tru => true
  | _ => false

/-- Recognizer for the FALSE constant node. -/
def Pdag.isFls : Pdag → Bool
  | .fls => true
  | _ => false

mutual

/-- Modelled from the spec: preprocessor pass 1, "Normalize connectives":
XOR, NAND, NOR, IMPLY, IFF are rewritten to AND/OR/NOT equivalents;
ATLEAST is retained as first-class; NULL gates are forwarded to the sole
argument. -/
def normalizeConnectives : Pdag → Pdag
  | .var i => .var i
  | .tru => .tru
  | .fls => .fls
  | .notg g => .notg (normalizeConnectives g)
  | .andg args => .andg (normalizeConnectivesList args)
  | .org args => .org (normalizeConnectivesList args)
  | .xorg g h =>
      .org [.andg [normalizeConnectives g, .notg (normalizeConnectives h)],
            .andg [.notg (normalizeConnectives g), normalizeConnectives h]]
  | .nandg args => .notg (.andg (normalizeConnectivesList args))
  | .norg args => .notg (.org (normalizeConnectivesList args))
  | .implyg g h => .org [.notg (normalizeConnectives g), normalizeConnectives h]
  | .iffg g h =>
      .org [.andg [normalizeConnectives g, normalizeConnectives h],
            .andg [.notg (normalizeConnectives g), .notg (normalizeConnectives h)]]
  | .atleast k args => .atleast k (normalizeConnectivesList args)
  | .nullg g => normalizeConnectives g

/-- Argument-list version of `normalizeConnectives`. -/
def normalizeConnectivesList : List Pdag → List Pdag
  | [] => []
  | g :: gs => normalizeConnectives g :: normalizeConnectivesList gs

end

/-- Smart AND constructor: folds constant children per the connective
identity (a FALSE child folds the gate, TRUE children are dropped). -/
def mkAnd (args : List Pdag) : Pdag :=
  if args.any Pdag.isFls then .fls
  else
    match args.filter (fun g => !g.isTru) with
    | [] => .tru
    | [g] => g
    | gs => .andg gs

/-- Smart OR constructor: folds constant children per the connective
identity (a TRUE child folds the gate, FALSE children are dropped). -/
def mkOr (args : List Pdag) : Pdag :=
  if args.any Pdag.isTru then .tru
  else
    match args.filter (fun g => !g.isFls) with
    | [] => .fls
    | [g] => g
    | gs => .org gs

/-- Smart NOT constructor folding constants. -/
def mkNot : Pdag → Pdag
  | .tru => .fls
  | .fls => .tru
  | g => .notg g

mutual

/-- Modelled from the spec: preprocessor pass 2, "Constant propagation":
children equal to TRUE/FALSE are replaced per connective identity and
whole subtrees are folded when possible. -/
def propagateConstants : Pdag → Pdag
  | .var i => .var i
  | .tru => .tru
  | .fls => .fls
  | .notg g => mkNot (propagateConstants g)
  | .andg args => mkAnd (propagateConstantsList args)
  | .org args => mkOr (propagateConstantsList args)
  | .xorg g h => .xorg (propagateConstants g) (propagateConstants h)
  | .nandg args => .nandg (propagateConstantsList args)
  | .norg args => .norg (propagateConstantsList args)
  | .implyg g h => .implyg (propagateConstants g) (propagateConstants h)
  | .iffg g h => .iffg (propagateConstants g) (propagateConstants h)
  | .atleast k args => .atleast k (propagateConstantsList args)
  | .nullg g => propagateConstants g

/-- Argument-list version of `propagateConstants`. -/
def propagateConstantsList : List Pdag → List Pdag
  | [] => []
  | g :: gs => propagateConstants g :: propagateConstantsList gs

end

mutual

/-- Modelled from the spec: preprocessor pass 3, "Literal sinking / De
Morgan": complements are pushed down to literals so interior nodes are
AND/OR (positive phase). -/
def pushComplements : Pdag → Pdag
  | .var i => .var i
  | .tru => .tru
  | .fls => .fls
  | .notg g => pushComplementsNeg g
  | .andg args => .andg (pushComplementsList args)
  | .org args => .org (pushComplementsList args)
  | .xorg g h => .xorg (pushComplements g) (pushComplements h)
  | .nandg args => .org (pushComplementsNegList args)
  | .norg args => .andg (pushComplementsNegList args)
  | .implyg g h => .implyg (pushComplements g) (pushComplements h)
  | .iffg g h => .iffg (pushComplements g) (pushComplements h)
  | .atleast k args => .atleast k (pushComplementsList args)
  | .nullg g => pushComplements g

/-- Negated phase of `pushComplements`: computes a form of NOT g with
the complement sunk towards the literals via De Morgan. -/
def pushComplementsNeg : Pdag → Pdag
  | .var i => .notg (.var i)
  | .tru => .fls
  | .fls => .tru
  | .notg g => pushComplements g
  | .andg args => .org (pushComplementsNegList args)
  | .org args => .andg (pushComplementsNegList args)
  | .xorg g h => .notg (.xorg (pushComplements g) (pushComplements h))
  | .nandg args => .andg (pushComplementsList args)
  | .norg args => .org (pushComplementsList args)
  | .implyg g h => .notg (.implyg (pushComplements g) (pushComplements h))
  | .iffg g h => .notg (.iffg (pushComplements g) (pushComplements h))
  | .atleast k args => .notg (.atleast k (pushComplementsList args))
  | .nullg g => pushComplementsNeg g

/-- Positive-phase list version of `pushComplements`. -/
def pushComplementsList : List Pdag → List Pdag
  | [] => []
  | g :: gs => pushComplements g :: pushComplementsList gs

/-- Negated-phase list version of `pushComplements`. -/
def pushComplementsNegList : List Pdag → List Pdag
  | [] => []
  | g :: gs => pushComplementsNeg g :: pushComplementsNegList gs

end

/-- Splice the arguments of AND children into the surrounding AND list. -/
def spliceAnd : List Pdag → List Pdag
  | [] => []
  | .andg inner :: gs => inner ++ spliceAnd gs
  | g :: gs => g :: spliceAnd gs

/-- Splice the arguments of OR children into the surrounding OR list. -/
def spliceOr : List Pdag → List Pdag
  | [] => []
  | .org inner :: gs => inner ++ spliceOr gs
  | g :: gs => g :: spliceOr gs

mutual

/-- Modelled from the spec: preprocessor pass 4, "Coalescing": chains of
the same connective are flattened (AND of AND becomes one AND). -/
def coalesce : Pdag → Pdag
  | .var i => .var i
  | .tru => .tru
  | .fls => .fls
  | .notg g => .notg (coalesce g)
  | .andg args => .andg (spliceAnd (coalesceList args))
  | .org args => .org (spliceOr (coalesceList args))
  | .xorg g h => .xorg (coalesce g) (coalesce h)
  | .nandg args => .nandg (coalesceList args)
  | .norg args => .norg (coalesceList args)
  | .implyg g h => .implyg (coalesce g) (coalesce h)
  | .iffg g h => .iffg (coalesce g) (coalesce h)
  | .atleast k args => .atleast k (coalesceList args)
  | .nullg g => .nullg (coalesce g)

/-- Argument-list version of `coalesce`. -/
def coalesceList : List Pdag → List Pdag
  | [] => []
  | g :: gs => coalesce g :: coalesceList gs

end

@[simp] theorem eval_var (a : Nat → Bool) (i : Nat) : (Pdag.var i).eval a = a i := by
  simp [Pdag.eval]

@[simp] theorem eval_tru (a : Nat → Bool) : (Pdag.tru).eval a = true := by
  simp [Pdag.eval]

@[simp] theorem eval_fls (a : Nat → Bool) : (Pdag.fls).eval a = false := by
  simp [Pdag.eval]

@[simp] theorem eval_notg (a : Nat → Bool) (g : Pdag) : (Pdag.notg g).eval a = !(g.eval a) := by
  simp [Pdag.eval]

@[simp] theorem eval_andg (a : Nat → Bool) (args : List Pdag) :
    (Pdag.andg args).eval a = Pdag.evalAll a args := by
  simp [Pdag.eval]

@[simp] theorem eval_org (a : Nat → Bool) (args : List Pdag) :
    (Pdag.org args).eval a = Pdag.evalAny a args := by
  simp [Pdag.eval]

@[simp] theorem eval_xorg (a : Nat → Bool) (g h : Pdag) :
    (Pdag.xorg g h).eval a = xor (g.eval a) (h.eval a) := by
  simp [Pdag.eval]

@[simp] theorem eval_nandg (a : Nat → Bool) (args : List Pdag) :
    (Pdag.nandg args).eval a = !(Pdag.evalAll a args) := by
  simp [Pdag.eval]

@[simp] theorem eval_norg (a : Nat → Bool) (args : List Pdag) :
    (Pdag.norg args).eval a = !(Pdag.evalAny a args) := by
  simp [Pdag.eval]

@[simp] theorem eval_implyg (a : Nat → Bool) (g h : Pdag) :
    (Pdag.implyg g h).eval a = (!(g.eval a) || h.eval a) := by
  simp [Pdag.eval]

@[simp] theorem eval_iffg (a : Nat → Bool) (g h : Pdag) :
    (Pdag.iffg g h).eval a = (g.eval a == h.eval a) := by
  simp [Pdag.eval]

@[simp] theorem eval_atleast (a : Nat → Bool) (k : Nat) (args : List Pdag) :
    (Pdag.atleast k args).eval a = decide (k ≤ Pdag.countTrue a args) := by
  simp [Pdag.eval]

@[simp] theorem eval_nullg (a : Nat → Bool) (g : Pdag) : (Pdag.nullg g).eval a = g.eval a := by
  simp [Pdag.eval]

@[simp] theorem evalAll_nil (a : Nat → Bool) : Pdag.evalAll a [] = true := by
  simp [Pdag.evalAll]

@[simp] theorem evalAll_cons (a : Nat → Bool) (g : Pdag) (gs : List Pdag) :
    Pdag.evalAll a (g :: gs) = (g.eval a && Pdag.evalAll a gs) := by
  simp [Pdag.evalAll]

@[simp] theorem evalAny_nil (a : Nat → Bool) : Pdag.evalAny a [] = false := by
  simp [Pdag.evalAny]

@[simp] theorem evalAny_cons (a : Nat → Bool) (g : Pdag) (gs : List Pdag) :
    Pdag.evalAny a (g :: gs) = (g.eval a || Pdag.evalAny a gs) := by
  simp [Pdag.evalAny]

@[simp] theorem countTrue_nil (a : Nat → Bool) : Pdag.countTrue a [] = 0 := by
  simp [Pdag.countTrue]

@[simp] theorem countTrue_cons (a : Nat → Bool) (g : Pdag) (gs : List Pdag) :
    Pdag.countTrue a (g :: gs) = (if g.eval a then 1 else 0) + Pdag.countTrue a gs := by
  simp [Pdag.countTrue]

theorem evalAll_append (a : Nat → Bool) (l₁ l₂ : List Pdag) :
    Pdag.evalAll a (l₁ ++ l₂) = (Pdag.evalAll a l₁ && Pdag.evalAll a l₂) := by
  induction l₁ with
  | nil => simp
  | cons g gs ih => simp [ih, Bool.and_assoc]

theorem evalAny_append (a : Nat → Bool) (l₁ l₂ : List Pdag) :
    Pdag.evalAny a (l₁ ++ l₂) = (Pdag.evalAny a l₁ || Pdag.evalAny a l₂) := by
  induction l₁ with
  | nil => simp
  | cons g gs ih => simp [ih, Bool.or_assoc]

theorem eval_of_isTru (a : Nat → Bool) {g : Pdag} (h : g.isTru = true) : g.eval a = true := by
  cases g <;> simp_all [Pdag.isTru]

theorem eval_of_isFls (a : Nat → Bool) {g : Pdag} (h : g.isFls = true) : g.eval a = false := by
  cases g <;> simp_all [Pdag.isFls]

theorem evalAll_false_of_any_isFls (a : Nat → Bool) {l : List Pdag}
    (h : l.any Pdag.isFls = true) : Pdag.evalAll a l = false := by
  induction l with
  | nil => simp at h
  | cons g gs ih =>
      simp only [List.any_cons, Bool.or_eq_true] at h
      rcases h with h | h
      · simp [eval_of_isFls a h]
      · simp [ih h]

theorem evalAny_true_of_any_isTru (a : Nat → Bool) {l : List Pdag}
    (h : l.any Pdag.isTru = true) : Pdag.evalAny a l = true := by
  induction l with
  | nil => simp at h
  | cons g gs ih =>
      simp only [List.any_cons, Bool.or_eq_true] at h
      rcases h with h | h
      · simp [eval_of_isTru a h]
      · simp [ih h]

theorem evalAll_filter_tru (a : Nat → Bool) (l : List Pdag) :
    Pdag.evalAll a (l.filter fun g => !g.isTru) = Pdag.evalAll a l := by
  induction l with
  | nil => simp
  | cons g gs ih =>
      by_cases h : g.isTru = true
      · simp [List.filter_cons, h, ih, eval_of_isTru a h]
      · simp only [Bool.not_eq_true] at h
        simp [List.filter_cons, h, ih]

theorem evalAny_filter_fls (a : Nat → Bool) (l : List Pdag) :
    Pdag.evalAny a (l.filter fun g => !g.isFls) = Pdag.evalAny a l := by
  induction l with
  | nil => simp
  | cons g gs ih =>
      by_cases h : g.isFls = true
      · simp [List.filter_cons, h, ih, eval_of_isFls a h]
      · simp only [Bool.not_eq_true] at h
        simp [List.filter_cons, h, ih]

theorem mkAnd_eval (a : Nat → Bool) (l : List Pdag) :
    (mkAnd l).eval a = Pdag.evalAll a l := by
  unfold mkAnd
  by_cases h : l.any Pdag.isFls = true
  · simp [h, evalAll_false_of_any_isFls a h]
  · simp only [h, if_false, Bool.false_eq_true]
    have hf := evalAll_filter_tru a l
    split
    next heq => rw [← hf, heq]; simp
    next g heq => rw [← hf, heq]; simp
    next => simp [hf]

theorem mkOr_eval (a : Nat → Bool) (l : List Pdag) :
    (mkOr l).eval a = Pdag.evalAny a l := by
  unfold mkOr
  by_cases h : l.any Pdag.isTru = true
  · simp [h, evalAny_true_of_any_isTru a h]
  · simp only [h, if_false, Bool.false_eq_true]
    have hf := evalAny_filter_fls a l
    split
    next heq => rw [← hf, heq]; simp
    next g heq => rw [← hf, heq]; simp
    next => simp [hf]

theorem mkNot_eval (a : Nat → Bool) (g : Pdag) : (mkNot g).eval a = !(g.eval a) := by
  cases g <;> simp [mkNot]

mutual

theorem normalizeConnectives_eval (a : Nat → Bool) :
    ∀ g : Pdag, (normalizeConnectives g).eval a = g.eval a
  | .var i => by simp [normalizeConnectives]
  | .tru => by simp [normalizeConnectives]
  | .fls => by simp [normalizeConnectives]
  | .notg g => by simp [normalizeConnectives, normalizeConnectives_eval a g]
  | .andg args => by simp [normalizeConnectives, (normalizeConnectivesList_eval a args).1]
  | .org args => by simp [normalizeConnectives, (normalizeConnectivesList_eval a args).2.1]
  | .xorg g h => by
      have ihg := normalizeConnectives_eval a g
      have ihh := normalizeConnectives_eval a h
      simp only [normalizeConnectives, eval_org, evalAny_cons, evalAny_nil, eval_andg,
        evalAll_cons, evalAll_nil, eval_notg, eval_xorg, ihg, ihh]
      cases g.eval a <;> cases h.eval a <;> rfl
  | .nandg args => by simp [normalizeConnectives, (normalizeConnectivesList_eval a args).1]
  | .norg args => by simp [normalizeConnectives, (normalizeConnectivesList_eval a args).2.1]
  | .implyg g h => by
      have ihg := normalizeConnectives_eval a g
      have ihh := normalizeConnectives_eval a h
      simp only [normalizeConnectives, eval_org, evalAny_cons, evalAny_nil, eval_notg,
        eval_implyg, ihg, ihh]
      cases g.eval a <;> cases h.eval a <;> rfl
  | .iffg g h => by
      have ihg := normalizeConnectives_eval a g
      have ihh := normalizeConnectives_eval a h
      simp only [normalizeConnectives, eval_org, evalAny_cons, evalAny_nil, eval_andg,
        evalAll_cons, evalAll_nil, eval_notg, eval_iffg, ihg, ihh]
      cases g.eval a <;> cases h.eval a <;> rfl
  | .atleast k args => by simp [normalizeConnectives, (normalizeConnectivesList_eval a args).2.2]
  | .nullg g => by simp [normalizeConnectives, normalizeConnectives_eval a g]

theorem normalizeConnectivesList_eval (a : Nat → Bool) :
    ∀ gs : List Pdag,
      Pdag.evalAll a (normalizeConnectivesList gs) = Pdag.evalAll a gs
      ∧ Pdag.evalAny a (normalizeConnectivesList gs) = Pdag.evalAny a gs
      ∧ Pdag.countTrue a (normalizeConnectivesList gs) = Pdag.countTrue a gs
  | [] => by simp [normalizeConnectivesList]
  | g :: gs => by
      have ih := normalizeConnectivesList_eval a gs
      have ihg := normalizeConnectives_eval a g
      simp [normalizeConnectivesList, ihg, ih.1, ih.2.1, ih.2.2]

end

mutual

theorem propagateConstants_eval (a : Nat → Bool) :
    ∀ g : Pdag, (propagateConstants g).eval a = g.eval a
  | .var i => by simp [propagateConstants]
  | .tru => by simp [propagateConstants]
  | .fls => by simp [propagateConstants]
  | .notg g => by simp [propagateConstants, mkNot_eval, propagateConstants_eval a g]
  | .andg args => by
      simp [propagateConstants, mkAnd_eval, (propagateConstantsList_eval a args).1]
  | .org args => by
      simp [propagateConstants, mkOr_eval, (propagateConstantsList_eval a args).2.1]
  | .xorg g h => by
      simp [propagateConstants, propagateConstants_eval a g, propagateConstants_eval a h]
  | .nandg args => by simp [propagateConstants, (propagateConstantsList_eval a args).1]
  | .norg args => by simp [propagateConstants, (propagateConstantsList_eval a args).2.1]
  | .implyg g h => by
      simp [propagateConstants, propagateConstants_eval a g, propagateConstants_eval a h]
  | .iffg g h => by
      simp [propagateConstants, propagateConstants_eval a g, propagateConstants_eval a h]
  | .atleast k args => by simp [propagateConstants, (propagateConstantsList_eval a args).2.2]
  | .nullg g => by simp [propagateConstants, propagateConstants_eval a g]

theorem propagateConstantsList_eval (a : Nat → Bool) :
    ∀ gs : List Pdag,
      Pdag.evalAll a (propagateConstantsList gs) = Pdag.evalAll a gs
      ∧ Pdag.evalAny a (propagateConstantsList gs) = Pdag.evalAny a gs
      ∧ Pdag.countTrue a (propagateConstantsList gs) = Pdag.countTrue a gs
  | [] => by simp [propagateConstantsList]
  | g :: gs => by
      have ih := propagateConstantsList_eval a gs
      have ihg := propagateConstants_eval a g
      simp [propagateConstantsList, ihg, ih.1, ih.2.1, ih.2.2]

end

mutual

theorem pushComplements_eval (a : Nat → Bool) :
    ∀ g : Pdag, (pushComplements g).eval a = g.eval a
  | .var i => by simp [pushComplements]
  | .tru => by simp [pushComplements]
  | .fls => by simp [pushComplements]
  | .notg g => by simp [pushComplements, pushComplementsNeg_eval a g]
  | .andg args => by simp [pushComplements, (pushComplementsList_eval a args).1]
  | .org args => by simp [pushComplements, (pushComplementsList_eval a args).2.1]
  | .xorg g h => by
      simp [pushComplements, pushComplements_eval a g, pushComplements_eval a h]
  | .nandg args => by simp [pushComplements, (pushComplementsNegList_eval a args).1]
  | .norg args => by simp [pushComplements, (pushComplementsNegList_eval a args).2]
  | .implyg g h => by
      simp [pushComplements, pushComplements_eval a g, pushComplements_eval a h]
  | .iffg g h => by
      simp [pushComplements, pushComplements_eval a g, pushComplements_eval a h]
  | .atleast k args => by simp [pushComplements, (pushComplementsList_eval a args).2.2]
  | .nullg g => by simp [pushComplements, pushComplements_eval a g]

theorem pushComplementsNeg_eval (a : Nat → Bool) :
    ∀ g : Pdag, (pushComplementsNeg g).eval a = !(g.eval a)
  | .var i => by simp [pushComplementsNeg]
  | .tru => by simp [pushComplementsNeg]
  | .fls => by simp [pushComplementsNeg]
  | .notg g => by simp [pushComplementsNeg, pushComplements_eval a g]
  | .andg args => by simp [pushComplementsNeg, (pushComplementsNegList_eval a args).1]
  | .org args => by simp [pushComplementsNeg, (pushComplementsNegList_eval a args).2]
  | .xorg g h => by
      simp [pushComplementsNeg, pushComplements_eval a g, pushComplements_eval a h]
  | .nandg args => by simp [pushComplementsNeg, (pushComplementsList_eval a args).1]
  | .norg args => by simp [pushComplementsNeg, (pushComplementsList_eval a args).2.1]
  | .implyg g h => by
      simp [pushComplementsNeg, pushComplements_eval a g, pushComplements_eval a h]
  | .iffg g h => by
      simp [pushComplementsNeg, pushComplements_eval a g, pushComplements_eval a h]
  | .atleast k args => by simp [pushComplementsNeg, (pushComplementsList_eval a args).2.2]
  | .nullg g => by simp [pushComplementsNeg, pushComplementsNeg_eval a g]

theorem pushComplementsList_eval (a : Nat → Bool) :
    ∀ gs : List Pdag,
      Pdag.evalAll a (pushComplementsList gs) = Pdag.evalAll a gs
      ∧ Pdag.evalAny a (pushComplementsList gs) = Pdag.evalAny a gs
      ∧ Pdag.countTrue a (pushComplementsList gs) = Pdag.countTrue a gs
  | [] => by simp [pushComplementsList]
  | g :: gs => by
      have ih := pushComplementsList_eval a gs
      have ihg := pushComplements_eval a g
      simp [pushComplementsList, ihg, ih.1, ih.2.1, ih.2.2]

theorem pushComplementsNegList_eval (a : Nat → Bool) :
    ∀ gs : List Pdag,
      Pdag.evalAny a (pushComplementsNegList gs) = !(Pdag.evalAll a gs)
      ∧ Pdag.evalAll a (pushComplementsNegList gs) = !(Pdag.evalAny a gs)
  | [] => by simp [pushComplementsNegList]
  | g :: gs => by
      have ih := pushComplementsNegList_eval a gs
      have ihg := pushComplementsNeg_eval a g
      simp [pushComplementsNegList, ihg, ih.1, ih.2]

end

theorem spliceAnd_evalAll (a : Nat → Bool) (l : List Pdag) :
    Pdag.evalAll a (spliceAnd l) = Pdag.evalAll a l := by
  induction l with
  | nil => simp [spliceAnd]
  | cons g gs ih => cases g <;> simp [spliceAnd, evalAll_append, ih]

theorem spliceOr_evalAny (a : Nat → Bool) (l : List Pdag) :
    Pdag.evalAny a (spliceOr l) = Pdag.evalAny a l := by
  induction l with
  | nil => simp [spliceOr]
  | cons g gs ih => cases g <;> simp [spliceOr, evalAny_append, ih]

mutual

theorem coalesce_eval (a : Nat → Bool) : ∀ g : Pdag, (coalesce g).eval a = g.eval a
  | .var i => by simp [coalesce]
  | .tru => by simp [coalesce]
  | .fls => by simp [coalesce]
  | .notg g => by simp [coalesce, coalesce_eval a g]
  | .andg args => by simp [coalesce, spliceAnd_evalAll, (coalesceList_eval a args).1]
  | .org args => by simp [coalesce, spliceOr_evalAny, (coalesceList_eval a args).2.1]
  | .xorg g h => by simp [coalesce, coalesce_eval a g, coalesce_eval a h]
  | .nandg args => by simp [coalesce, (coalesceList_eval a args).1]
  | .norg args => by simp [coalesce, (coalesceList_eval a args).2.1]
  | .implyg g h => by simp [coalesce, coalesce_eval a g, coalesce_eval a h]
  | .iffg g h => by simp [coalesce, coalesce_eval a g, coalesce_eval a h]
  | .atleast k args => by simp [coalesce, (coalesceList_eval a args).2.2]
  | .nullg g => by simp [coalesce, coalesce_eval a g]

theorem coalesceList_eval (a : Nat → Bool) :
    ∀ gs : List Pdag,
      Pdag.evalAll a (coalesceList gs) = Pdag.evalAll a gs
      ∧ Pdag.evalAny a (coalesceList gs) = Pdag.evalAny a gs
      ∧ Pdag.countTrue a (coalesceList gs) = Pdag.countTrue a gs
  | [] => by simp [coalesceList]
  | g :: gs => by
      have ih := coalesceList_eval a gs
      have ihg := coalesce_eval a g
      simp [coalesceList, ihg, ih.1, ih.2.1, ih.2.2]

end

mutual

/-- Structural equality of PDAG nodes. In the source, equality of
handles after hash-consing; in this tree embedding, structural
equality of subterms. -/
def Pdag.beq : Pdag → Pdag → Bool
  | .var i, .var j => i == j
  | .tru, .tru => true
  | .fls, .fls => true
  | .notg g, .notg h => Pdag.beq g h
  | .andg xs, .andg ys => Pdag.beqList xs ys
  | .org xs, .org ys => Pdag.beqList xs ys
  | .xorg a b, .xorg c d => Pdag.beq a c && Pdag.beq b d
  | .nandg xs, .nandg ys => Pdag.beqList xs ys
  | .norg xs, .norg ys => Pdag.beqList xs ys
  | .implyg a b, .implyg c d => Pdag.beq a c && Pdag.beq b d
  | .iffg a b, .iffg c d => Pdag.beq a c && Pdag.beq b d
  | .atleast k xs, .atleast l ys => k == l && Pdag.beqList xs ys
  | .nullg g, .nullg h => Pdag.beq g h
  | _, _ => false

/-- Structural equality of argument lists. -/
def Pdag.beqList : List Pdag → List Pdag → Bool
  | [], [] => true
  | x :: xs, y :: ys => Pdag.beq x y && Pdag.beqList xs ys
  | _, _ => false

end

theorem beq_inv_var {i : Nat} {h : Pdag} (hb : Pdag.beq (.var i) h = true) : h = .var i := by
  cases h <;> simp [Pdag.beq] at hb
  rw [hb]

theorem beq_inv_tru {h : Pdag} (hb : Pdag.beq .tru h = true) : h = .tru := by
  cases h <;> simp [Pdag.beq] at hb
  rfl

theorem beq_inv_fls {h : Pdag} (hb : Pdag.beq .fls h = true) : h = .fls := by
  cases h <;> simp [Pdag.beq] at hb
  rfl

theorem beq_inv_notg {g h : Pdag} (hb : Pdag.beq (.notg g) h = true) :
    ∃ g', h = .notg g' ∧ Pdag.beq g g' = true := by
  cases h <;> simp [Pdag.beq] at hb
  exact ⟨_, rfl, hb⟩

theorem beq_inv_andg {xs : List Pdag} {h : Pdag} (hb : Pdag.beq (.andg xs) h = true) :
    ∃ ys, h = .andg ys ∧ Pdag.beqList xs ys = true := by
  cases h <;> simp [Pdag.beq] at hb
  exact ⟨_, rfl, hb⟩

theorem beq_inv_org {xs : List Pdag} {h : Pdag} (hb : Pdag.beq (.org xs) h = true) :
    ∃ ys, h = .org ys ∧ Pdag.beqList xs ys = true := by
  cases h <;> simp [Pdag.beq] at hb
  exact ⟨_, rfl, hb⟩

theorem beq_inv_xorg {a b : Pdag} {h : Pdag} (hb : Pdag.beq (.xorg a b) h = true) :
    ∃ c d, h = .xorg c d ∧ Pdag.beq a c = true ∧ Pdag.beq b d = true := by
  cases h <;> simp [Pdag.beq] at hb
  exact ⟨_, _, rfl, hb.1, hb.2⟩

theorem beq_inv_nandg {xs : List Pdag} {h : Pdag} (hb : Pdag.beq (.nandg xs) h = true) :
    ∃ ys, h = .nandg ys ∧ Pdag.beqList xs ys = true := by
  cases h <;> simp [Pdag.beq] at hb
  exact ⟨_, rfl, hb⟩

theorem beq_inv_norg {xs : List Pdag} {h : Pdag} (hb : Pdag.beq (.norg xs) h = true) :
    ∃ ys, h = .norg ys ∧ Pdag.beqList xs ys = true := by
  cases h <;> simp [Pdag.beq] at hb
  exact ⟨_, rfl, hb⟩

theorem beq_inv_implyg {a b : Pdag} {h : Pdag} (hb : Pdag.beq (.implyg a b) h = true) :
    ∃ c d, h = .implyg c d ∧ Pdag.beq a c = true ∧ Pdag.beq b d = true := by
  cases h <;> simp [Pdag.beq] at hb
  exact ⟨_, _, rfl, hb.1, hb.2⟩

theorem beq_inv_iffg {a b : Pdag} {h : Pdag} (hb : Pdag.beq (.iffg a b) h = true) :
    ∃ c d, h = .iffg c d ∧ Pdag.beq a c = true ∧ Pdag.beq b d = true := by
  cases h <;> simp [Pdag.beq] at hb
  exact ⟨_, _, rfl, hb.1, hb.2⟩

theorem beq_inv_atleast {k : Nat} {xs : List Pdag} {h : Pdag}
    (hb : Pdag.beq (.atleast k xs) h = true) :
    ∃ l ys, h = .atleast l ys ∧ k = l ∧ Pdag.beqList xs ys = true := by
  cases h <;> simp [Pdag.beq] at hb
  exact ⟨_, _, rfl, hb.1, hb.2⟩

theorem beq_inv_nullg {g h : Pdag} (hb : Pdag.beq (.nullg g) h = true) :
    ∃ g', h = .nullg g' ∧ Pdag.beq g g' = true := by
  cases h <;> simp [Pdag.beq] at hb
  exact ⟨_, rfl, hb⟩

mutual

theorem beq_sound : ∀ g h : Pdag, Pdag.beq g h = true → g = h
  | .var _, _, hb => (beq_inv_var hb).symm
  | .tru, _, hb => (beq_inv_tru hb).symm
  | .fls, _, hb => (beq_inv_fls hb).symm
  | .notg g, _, hb => by
      obtain ⟨g', rfl, hg⟩ := beq_inv_notg hb
      rw [beq_sound g g' hg]
  | .andg xs, _, hb => by
      obtain ⟨ys, rfl, hxs⟩ := beq_inv_andg hb
      rw [beqList_sound xs ys hxs]
  | .org xs, _, hb => by
      obtain ⟨ys, rfl, hxs⟩ := beq_inv_org hb
      rw [beqList_sound xs ys hxs]
  | .xorg a b, _, hb => by
      obtain ⟨c, d, rfl, hac, hbd⟩ := beq_inv_xorg hb
      rw [beq_sound a c hac, beq_sound b d hbd]
  | .nandg xs, _, hb => by
      obtain ⟨ys, rfl, hxs⟩ := beq_inv_nandg hb
      rw [beqList_sound xs ys hxs]
  | .norg xs, _, hb => by
      obtain ⟨ys, rfl, hxs⟩ := beq_inv_norg hb
      rw [beqList_sound xs ys hxs]
  | .implyg a b, _, hb => by
      obtain ⟨c, d, rfl, hac, hbd⟩ := beq_inv_implyg hb
      rw [beq_sound a c hac, beq_sound b d hbd]
  | .iffg a b, _, hb => by
      obtain ⟨c, d, rfl, hac, hbd⟩ := beq_inv_iffg hb
      rw [beq_sound a c hac, beq_sound b d hbd]
  | .atleast k xs, _, hb => by
      obtain ⟨l, ys, rfl, hkl, hxs⟩ := beq_inv_atleast hb
      rw [hkl, beqList_sound xs ys hxs]
  | .nullg g, _, hb => by
      obtain ⟨g', rfl, hg⟩ := beq_inv_nullg hb
      rw [beq_sound g g' hg]

theorem beqList_sound : ∀ xs ys : List Pdag, Pdag.beqList xs ys = true → xs = ys
  | [], [], _ => rfl
  | [], _ :: _, hb => by simp [Pdag.beqList] at hb
  | _ :: _, [], hb => by simp [Pdag.beqList] at hb
  | x :: xs, y :: ys, hb => by
      simp only [Pdag.beqList, Bool.and_eq_true] at hb
      rw [beq_sound x y hb.1, beqList_sound xs ys hb.2]

end

theorem beq_eval {g h : Pdag} (hb : Pdag.beq g h = true) (a : Nat → Bool) :
    g.eval a = h.eval a := by
  rw [beq_sound g h hb]

theorem evalAll_eq_true_iff (a : Nat → Bool) (l : List Pdag) :
    Pdag.evalAll a l = true ↔ ∀ g ∈ l, g.eval a = true := by
  induction l with
  | nil => simp
  | cons g gs ih => simp [ih]

theorem evalAny_eq_true_iff (a : Nat → Bool) (l : List Pdag) :
    Pdag.evalAny a l = true ↔ ∃ g ∈ l, g.eval a = true := by
  induction l with
  | nil => simp
  | cons g gs ih => simp [ih]

/-- Idempotence: drop later duplicates of each argument. -/
def dedupArgs : List Pdag → List Pdag
  | [] => []
  | g :: gs => g :: dedupArgs (gs.filter fun h => !(Pdag.beq g h))
termination_by l => l.length
decreasing_by
  simp only [List.length_cons]
  exact Nat.lt_succ_of_le (List.length_filter_le _ gs)

theorem evalAll_filter_dup (a : Nat → Bool) (g : Pdag) (gs : List Pdag) :
    (g.eval a && Pdag.evalAll a (gs.filter fun h => !(Pdag.beq g h)))
      = (g.eval a && Pdag.evalAll a gs) := by
  cases hg : g.eval a
  · simp
  · simp only [Bool.true_and]
    induction gs with
    | nil => rfl
    | cons h hs ih =>
        by_cases hb : Pdag.beq g h = true
        · have hf : (h :: hs).filter (fun x => !(Pdag.beq g x))
              = hs.filter (fun x => !(Pdag.beq g x)) := by
            simp [List.filter_cons, hb]
          rw [hf, ih, evalAll_cons, ← beq_eval hb a, hg, Bool.true_and]
        · have hf : (h :: hs).filter (fun x => !(Pdag.beq g x))
              = h :: hs.filter (fun x => !(Pdag.beq g x)) := by
            simp [List.filter_cons, hb]
          rw [hf, evalAll_cons, evalAll_cons, ih]

theorem evalAny_filter_dup (a : Nat → Bool) (g : Pdag) (gs : List Pdag) :
    (g.eval a || Pdag.evalAny a (gs.filter fun h => !(Pdag.beq g h)))
      = (g.eval a || Pdag.evalAny a gs) := by
  cases hg : g.eval a
  · simp only [Bool.false_or]
    induction gs with
    | nil => rfl
    | cons h hs ih =>
        by_cases hb : Pdag.beq g h = true
        · have hf : (h :: hs).filter (fun x => !(Pdag.beq g x))
              = hs.filter (fun x => !(Pdag.beq g x)) := by
            simp [List.filter_cons, hb]
          rw [hf, ih, evalAny_cons, ← beq_eval hb a, hg, Bool.false_or]
        · have hf : (h :: hs).filter (fun x => !(Pdag.beq g x))
              = h :: hs.filter (fun x => !(Pdag.beq g x)) := by
            simp [List.filter_cons, hb]
          rw [hf, evalAny_cons, evalAny_cons, ih]
  · simp

theorem evalAll_dedupArgs (a : Nat → Bool) : ∀ l : List Pdag,
    Pdag.evalAll a (dedupArgs l) = Pdag.evalAll a l
  | [] => by simp [dedupArgs]
  | g :: gs => by
      simp only [dedupArgs, evalAll_cons]
      rw [evalAll_dedupArgs a (gs.filter fun h => !(Pdag.beq g h)), evalAll_filter_dup]
termination_by l => l.length
decreasing_by
  simp only [List.length_cons]
  exact Nat.lt_succ_of_le (List.length_filter_le _ gs)

theorem evalAny_dedupArgs (a : Nat → Bool) : ∀ l : List Pdag,
    Pdag.evalAny a (dedupArgs l) = Pdag.evalAny a l
  | [] => by simp [dedupArgs]
  | g :: gs => by
      simp only [dedupArgs, evalAny_cons]
      rw [evalAny_dedupArgs a (gs.filter fun h => !(Pdag.beq g h)), evalAny_filter_dup]
termination_by l => l.length
decreasing_by
  simp only [List.length_cons]
  exact Nat.lt_succ_of_le (List.length_filter_le _ gs)

/-- Contradiction/tautology detection: the list contains an argument
together with its complement. -/
def hasComplement (args : List Pdag) : Bool :=
  args.any fun g => args.any fun h =>
    match h with
    | .notg h' => Pdag.beq g h'
    | _ => false

theorem evalAll_of_hasComplement (a : Nat → Bool) {args : List Pdag}
    (h : hasComplement args = true) : Pdag.evalAll a args = false := by
  cases hall : Pdag.evalAll a args
  · rfl
  · exfalso
    simp only [hasComplement, List.any_eq_true] at h
    obtain ⟨g, hg, hrest⟩ := h
    obtain ⟨h2, hh2, h3⟩ := hrest
    cases h2 <;> simp at h3
    case notg h' =>
      have hmem := (evalAll_eq_true_iff a args).1 hall
      have h4 := hmem g hg
      have h5 := hmem _ hh2
      rw [eval_notg] at h5
      have h6 : h'.eval a = false := by simpa using h5
      rw [beq_eval h3 a, h6] at h4
      exact absurd h4 (by simp)

theorem evalAny_of_hasComplement (a : Nat → Bool) {args : List Pdag}
    (h : hasComplement args = true) : Pdag.evalAny a args = true := by
  cases hany : Pdag.evalAny a args
  · exfalso
    simp only [hasComplement, List.any_eq_true] at h
    obtain ⟨g, hg, hrest⟩ := h
    obtain ⟨h2, hh2, h3⟩ := hrest
    cases h2 <;> simp at h3
    case notg h' =>
      have hnone : ∀ x ∈ args, x.eval a = false := by
        intro x hx
        cases hxv : x.eval a
        · rfl
        · exact absurd ((evalAny_eq_true_iff a args).2 ⟨x, hx, hxv⟩) (by simp [hany])
      have h4 := hnone g hg
      have h5 := hnone _ hh2
      rw [eval_notg] at h5
      have h6 : h'.eval a = true := by simpa using h5
      rw [beq_eval h3 a, h6] at h4
      exact absurd h4 (by simp)
  · rfl

/-- Keep an AND argument unless it is an OR gate one of whose
disjuncts is itself an argument of the AND. -/
def keepAnd (args : List Pdag) (h : Pdag) : Bool :=
  match h with
  | .org inner => !(args.any fun g => inner.any (Pdag.beq g))
  | _ => true

/-- Absorption for AND gates: A ∧ (A ∨ X) → A. -/
def absorbAnd (args : List Pdag) : List Pdag :=
  args.filter (keepAnd args)

/-- Keep an OR argument unless it is an AND gate one of whose
conjuncts is itself an argument of the OR. -/
def keepOr (args : List Pdag) (h : Pdag) : Bool :=
  match h with
  | .andg inner => !(args.any fun g => inner.any (Pdag.beq g))
  | _ => true

/-- Absorption for OR gates: A ∨ (A ∧ X) → A. -/
def absorbOr (args : List Pdag) : List Pdag :=
  args.filter (keepOr args)

theorem sizeOf_pos (g : Pdag) : 1 ≤ sizeOf g := by
  cases g <;> simp <;> omega

theorem evalAll_eq_false_of_mem (a : Nat → Bool) {l : List Pdag} {g : Pdag}
    (hg : g ∈ l) (hv : g.eval a = false) : Pdag.evalAll a l = false := by
  cases h : Pdag.evalAll a l
  · rfl
  · exact absurd ((evalAll_eq_true_iff a l).1 h g hg) (by simp [hv])

theorem evalAny_eq_false_iff (a : Nat → Bool) (l : List Pdag) :
    Pdag.evalAny a l = false ↔ ∀ g ∈ l, g.eval a = false := by
  induction l with
  | nil => simp
  | cons g gs ih => simp [ih]

theorem absorbAnd_sound (a : Nat → Bool) (args : List Pdag)
    (hall : Pdag.evalAll a (absorbAnd args) = true) :
    ∀ h ∈ args, h.eval a = true := by
  have main : ∀ n, ∀ h ∈ args, sizeOf h ≤ n → h.eval a = true := by
    intro n
    induction n with
    | zero =>
        intro h _ hsz
        exact absurd (sizeOf_pos h) (by omega)
    | succ n ih =>
        intro h hm hsz
        by_cases hkeep : h ∈ absorbAnd args
        · exact (evalAll_eq_true_iff a _).1 hall h hkeep
        · have hpred : ¬(keepAnd args h = true) := by
            intro hp
            exact hkeep (List.mem_filter.2 ⟨hm, hp⟩)
          cases h with
          | org inner =>
              have h2 : (args.any fun g => inner.any (Pdag.beq g)) = true := by
                cases hx : (args.any fun g => inner.any (Pdag.beq g))
                · exact absurd (by simp [keepAnd, hx]) hpred
                · rfl
              simp only [List.any_eq_true] at h2
              obtain ⟨g, hgmem, y, hymem, hbeq⟩ := h2
              have hge := beq_sound g y hbeq
              have hszy : sizeOf y < sizeOf inner := List.sizeOf_lt_of_mem hymem
              have hszo : sizeOf (Pdag.org inner) = 1 + sizeOf inner := by simp
              have hszg : sizeOf g ≤ n := by
                rw [hge]
                omega
              have hgeval := ih g hgmem hszg
              rw [eval_org]
              refine (evalAny_eq_true_iff a inner).2 ⟨y, hymem, ?_⟩
              rw [← hge]
              exact hgeval
          | var i => exact absurd rfl hpred
          | tru => exact absurd rfl hpred
          | fls => exact absurd rfl hpred
          | notg g => exact absurd rfl hpred
          | andg xs => exact absurd rfl hpred
          | xorg g1 g2 => exact absurd rfl hpred
          | nandg xs => exact absurd rfl hpred
          | norg xs => exact absurd rfl hpred
          | implyg g1 g2 => exact absurd rfl hpred
          | iffg g1 g2 => exact absurd rfl hpred
          | atleast k xs => exact absurd rfl hpred
          | nullg g => exact absurd rfl hpred
  exact fun h hm => main (sizeOf h) h hm (le_refl _)

theorem evalAll_absorbAnd (a : Nat → Bool) (args : List Pdag) :
    Pdag.evalAll a (absorbAnd args) = Pdag.evalAll a args := by
  cases hall : Pdag.evalAll a (absorbAnd args)
  · cases hargs : Pdag.evalAll a args
    · rfl
    · exfalso
      have h1 := (evalAll_eq_true_iff a args).1 hargs
      have h2 : Pdag.evalAll a (absorbAnd args) = true :=
        (evalAll_eq_true_iff a _).2 fun h hm => h1 h (List.mem_of_mem_filter hm)
      rw [hall] at h2
      exact absurd h2 (by simp)
  · exact ((evalAll_eq_true_iff a args).2 (absorbAnd_sound a args hall)).symm

theorem absorbOr_sound (a : Nat → Bool) (args : List Pdag)
    (hany : Pdag.evalAny a (absorbOr args) = false) :
    ∀ h ∈ args, h.eval a = false := by
  have main : ∀ n, ∀ h ∈ args, sizeOf h ≤ n → h.eval a = false := by
    intro n
    induction n with
    | zero =>
        intro h _ hsz
        exact absurd (sizeOf_pos h) (by omega)
    | succ n ih =>
        intro h hm hsz
        by_cases hkeep : h ∈ absorbOr args
        · exact (evalAny_eq_false_iff a _).1 hany h hkeep
        · have hpred : ¬(keepOr args h = true) := by
            intro hp
            exact hkeep (List.mem_filter.2 ⟨hm, hp⟩)
          cases h with
          | andg inner =>
              have h2 : (args.any fun g => inner.any (Pdag.beq g)) = true := by
                cases hx : (args.any fun g => inner.any (Pdag.beq g))
                · exact absurd (by simp [keepOr, hx]) hpred
                · rfl
              simp only [List.any_eq_true] at h2
              obtain ⟨g, hgmem, y, hymem, hbeq⟩ := h2
              have hge := beq_sound g y hbeq
              have hszy : sizeOf y < sizeOf inner := List.sizeOf_lt_of_mem hymem
              have hszo : sizeOf (Pdag.andg inner) = 1 + sizeOf inner := by simp
              have hszg : sizeOf g ≤ n := by
                rw [hge]
                omega
              have hgeval := ih g hgmem hszg
              rw [eval_andg]
              refine evalAll_eq_false_of_mem a hymem ?_
              rw [← hge]
              exact hgeval
          | var i => exact absurd rfl hpred
          | tru => exact absurd rfl hpred
          | fls => exact absurd rfl hpred
          | notg g => exact absurd rfl hpred
          | org xs => exact absurd rfl hpred
          | xorg g1 g2 => exact absurd rfl hpred
          | nandg xs => exact absurd rfl hpred
          | norg xs => exact absurd rfl hpred
          | implyg g1 g2 => exact absurd rfl hpred
          | iffg g1 g2 => exact absurd rfl hpred
          | atleast k xs => exact absurd rfl hpred
          | nullg g => exact absurd rfl hpred
  exact fun h hm => main (sizeOf h) h hm (le_refl _)

theorem evalAny_absorbOr (a : Nat → Bool) (args : List Pdag) :
    Pdag.evalAny a (absorbOr args) = Pdag.evalAny a args := by
  cases hany : Pdag.evalAny a (absorbOr args)
  · exact ((evalAny_eq_false_iff a args).2 (absorbOr_sound a args hany)).symm
  · cases hargs : Pdag.evalAny a args
    · exfalso
      have h1 := (evalAny_eq_false_iff a args).1 hargs
      have h2 : Pdag.evalAny a (absorbOr args) = false :=
        (evalAny_eq_false_iff a _).2 fun h hm => h1 h (List.mem_of_mem_filter hm)
      rw [hany] at h2
      exact absurd h2 (by simp)
    · rfl

mutual

/-- Modelled from the spec: preprocessor pass 5, "Boolean
optimization": idempotence (duplicate arguments dropped),
contradiction/tautology detection per gate (an argument together with
its complement folds the gate to a constant), and absorption
(A ∧ (A ∨ X) → A and its dual). Module extraction, the remaining part
of this pass, is modelled by `findModules`/`substModule` below, as it
treats sub-DAGs as atomic rather than rewriting them. -/
def booleanOptimization : Pdag → Pdag
  | .var i => .var i
  | .tru => .tru
  | .fls => .fls
  | .notg g => .notg (booleanOptimization g)
  | .andg args =>
      if hasComplement (booleanOptimizationList args) then .fls
      else .andg (absorbAnd (dedupArgs (booleanOptimizationList args)))
  | .org args =>
      if hasComplement (booleanOptimizationList args) then .tru
      else .org (absorbOr (dedupArgs (booleanOptimizationList args)))
  | .xorg g h => .xorg (booleanOptimization g) (booleanOptimization h)
  | .nandg args => .nandg (booleanOptimizationList args)
  | .norg args => .norg (booleanOptimizationList args)
  | .implyg g h => .implyg (booleanOptimization g) (booleanOptimization h)
  | .iffg g h => .iffg (booleanOptimization g) (booleanOptimization h)
  | .atleast k args => .atleast k (booleanOptimizationList args)
  | .nullg g => .nullg (booleanOptimization g)

/-- Argument-list version of `booleanOptimization`. -/
def booleanOptimizationList : List Pdag → List Pdag
  | [] => []
  | g :: gs => booleanOptimization g :: booleanOptimizationList gs

end

theorem evalAll_dedup_absorb (a : Nat → Bool) (args : List Pdag) :
    Pdag.evalAll a (absorbAnd (dedupArgs args)) = Pdag.evalAll a args := by
  rw [evalAll_absorbAnd, evalAll_dedupArgs]

theorem evalAny_dedup_absorb (a : Nat → Bool) (args : List Pdag) :
    Pdag.evalAny a (absorbOr (dedupArgs args)) = Pdag.evalAny a args := by
  rw [evalAny_absorbOr, evalAny_dedupArgs]

mutual

theorem booleanOptimization_eval (a : Nat → Bool) :
    ∀ g : Pdag, (booleanOptimization g).eval a = g.eval a
  | .var i => by simp [booleanOptimization]
  | .tru => by simp [booleanOptimization]
  | .fls => by simp [booleanOptimization]
  | .notg g => by simp [booleanOptimization, booleanOptimization_eval a g]
  | .andg args => by
      have ih := (booleanOptimizationList_eval a args).1
      by_cases hc : hasComplement (booleanOptimizationList args) = true
      · rw [show booleanOptimization (.andg args) = .fls by simp [booleanOptimization, hc]]
        rw [eval_fls, eval_andg, ← ih, evalAll_of_hasComplement a hc]
      · rw [show booleanOptimization (.andg args)
            = .andg (absorbAnd (dedupArgs (booleanOptimizationList args))) by
          simp [booleanOptimization, hc]]
        rw [eval_andg, eval_andg, evalAll_dedup_absorb, ih]
  | .org args => by
      have ih := (booleanOptimizationList_eval a args).2.1
      by_cases hc : hasComplement (booleanOptimizationList args) = true
      · rw [show booleanOptimization (.org args) = .tru by simp [booleanOptimization, hc]]
        rw [eval_tru, eval_org, ← ih, evalAny_of_hasComplement a hc]
      · rw [show booleanOptimization (.org args)
            = .org (absorbOr (dedupArgs (booleanOptimizationList args))) by
          simp [booleanOptimization, hc]]
        rw [eval_org, eval_org, evalAny_dedup_absorb, ih]
  | .xorg g h => by
      simp [booleanOptimization, booleanOptimization_eval a g, booleanOptimization_eval a h]
  | .nandg args => by simp [booleanOptimization, (booleanOptimizationList_eval a args).1]
  | .norg args => by simp [booleanOptimization, (booleanOptimizationList_eval a args).2.1]
  | .implyg g h => by
      simp [booleanOptimization, booleanOptimization_eval a g, booleanOptimization_eval a h]
  | .iffg g h => by
      simp [booleanOptimization, booleanOptimization_eval a g, booleanOptimization_eval a h]
  | .atleast k args => by
      simp [booleanOptimization, (booleanOptimizationList_eval a args).2.2]
  | .nullg g => by simp [booleanOptimization, booleanOptimization_eval a g]

theorem booleanOptimizationList_eval (a : Nat → Bool) :
    ∀ gs : List Pdag,
      Pdag.evalAll a (booleanOptimizationList gs) = Pdag.evalAll a gs
      ∧ Pdag.evalAny a (booleanOptimizationList gs) = Pdag.evalAny a gs
      ∧ Pdag.countTrue a (booleanOptimizationList gs) = Pdag.countTrue a gs
  | [] => by simp [booleanOptimizationList]
  | g :: gs => by
      have ih := booleanOptimizationList_eval a gs
      have ihg := booleanOptimization_eval a g
      simp [booleanOptimizationList, ihg, ih.1, ih.2.1, ih.2.2]

end

mutual

/-- The basic events a PDAG node depends on (its variable support). -/
def Pdag.vars : Pdag → List Nat
  | .var i => [i]
  | .tru => []
  | .fls => []
  | .notg g => g.vars
  | .andg args => Pdag.varsList args
  | .org args => Pdag.varsList args
  | .xorg g h => g.vars ++ h.vars
  | .nandg args => Pdag.varsList args
  | .norg args => Pdag.varsList args
  | .implyg g h => g.vars ++ h.vars
  | .iffg g h => g.vars ++ h.vars
  | .atleast _ args => Pdag.varsList args
  | .nullg g => g.vars

/-- Variable support of an argument list. -/
def Pdag.varsList : List Pdag → List Nat
  | [] => []
  | g :: gs => Pdag.vars g ++ Pdag.varsList gs

end

/-- Is the variable support of `g` disjoint from its siblings'? -/
def disjointSupport (g : Pdag) (siblings : List Pdag) : Bool :=
  g.vars.all fun i => !((Pdag.varsList siblings).contains i)

/-- The arguments of a gate qualifying as modules: their variable
support is disjoint from all sibling arguments' (and, in this tree
embedding, every sub-DAG has a single parent). -/
def modulesOf (args : List Pdag) : List Pdag :=
  args.filter fun g => disjointSupport g (args.filter fun h => !(Pdag.beq g h))

mutual

/-- Modelled from the spec: module detection of the Boolean
optimization pass — sub-DAGs with a single parent and disjoint
variable support are collected to be treated as atomic modules by the
downstream engines. -/
def findModules : Pdag → List Pdag
  | .var _ => []
  | .tru => []
  | .fls => []
  | .notg g => findModules g
  | .andg args => modulesOf args ++ findModulesList args
  | .org args => modulesOf args ++ findModulesList args
  | .xorg g h => findModules g ++ findModules h
  | .nandg args => findModulesList args
  | .norg args => findModulesList args
  | .implyg g h => findModules g ++ findModules h
  | .iffg g h => findModules g ++ findModules h
  | .atleast _ args => findModulesList args
  | .nullg g => findModules g

/-- Argument-list version of `findModules`. -/
def findModulesList : List Pdag → List Pdag
  | [] => []
  | g :: gs => findModules g ++ findModulesList gs

end

/-- The constant node of a Boolean value. -/
def constOf (b : Bool) : Pdag := if b then .tru else .fls

mutual

/-- Modelled from the spec: treating a sub-DAG as an atomic module —
every occurrence of the module is replaced by its separately computed
Boolean value. -/
def substModule (m : Pdag) (b : Bool) : Pdag → Pdag
  | .var i => if Pdag.beq (.var i) m then constOf b else .var i
  | .tru => if Pdag.beq .tru m then constOf b else .tru
  | .fls => if Pdag.beq .fls m then constOf b else .fls
  | .notg g => if Pdag.beq (.notg g) m then constOf b else .notg (substModule m b g)
  | .andg args =>
      if Pdag.beq (.andg args) m then constOf b else .andg (substModuleList m b args)
  | .org args =>
      if Pdag.beq (.org args) m then constOf b else .org (substModuleList m b args)
  | .xorg g h =>
      if Pdag.beq (.xorg g h) m then constOf b
      else .xorg (substModule m b g) (substModule m b h)
  | .nandg args =>
      if Pdag.beq (.nandg args) m then constOf b else .nandg (substModuleList m b args)
  | .norg args =>
      if Pdag.beq (.norg args) m then constOf b else .norg (substModuleList m b args)
  | .implyg g h =>
      if Pdag.beq (.implyg g h) m then constOf b
      else .implyg (substModule m b g) (substModule m b h)
  | .iffg g h =>
      if Pdag.beq (.iffg g h) m then constOf b
      else .iffg (substModule m b g) (substModule m b h)
  | .atleast k args =>
      if Pdag.beq (.atleast k args) m then constOf b
      else .atleast k (substModuleList m b args)
  | .nullg g => if Pdag.beq (.nullg g) m then constOf b else .nullg (substModule m b g)

/-- Argument-list version of `substModule`. -/
def substModuleList (m : Pdag) (b : Bool) : List Pdag → List Pdag
  | [] => []
  | g :: gs => substModule m b g :: substModuleList m b gs

end

/-- Modelled from the spec: the module-extraction step annotates the
PDAG with its detected modules for the downstream engines; the graph
itself is not rewritten. -/
def extractModules (g : Pdag) : Pdag × List Pdag := (g, findModules g)

theorem constOf_eval (a : Nat → Bool) {g m : Pdag} (hb : Pdag.beq g m = true) :
    (constOf (m.eval a)).eval a = g.eval a := by
  rw [← beq_sound g m hb]
  cases hv : g.eval a <;> simp [constOf, hv]

mutual

theorem substModule_eval (a : Nat → Bool) (m : Pdag) :
    ∀ g : Pdag, (substModule m (m.eval a) g).eval a = g.eval a
  | .var i => by
      by_cases hb : Pdag.beq (.var i) m = true
      · simp only [substModule]
        rw [if_pos hb]
        exact constOf_eval a hb
      · simp only [substModule]
        rw [if_neg hb]
  | .tru => by
      by_cases hb : Pdag.beq .tru m = true
      · simp only [substModule]
        rw [if_pos hb]
        exact constOf_eval a hb
      · simp only [substModule]
        rw [if_neg hb]
  | .fls => by
      by_cases hb : Pdag.beq .fls m = true
      · simp only [substModule]
        rw [if_pos hb]
        exact constOf_eval a hb
      · simp only [substModule]
        rw [if_neg hb]
  | .notg g => by
      by_cases hb : Pdag.beq (.notg g) m = true
      · simp only [substModule]
        rw [if_pos hb]
        exact constOf_eval a hb
      · simp only [substModule]
        rw [if_neg hb, eval_notg, eval_notg, substModule_eval a m g]
  | .andg args => by
      by_cases hb : Pdag.beq (.andg args) m = true
      · simp only [substModule]
        rw [if_pos hb]
        exact constOf_eval a hb
      · simp only [substModule]
        rw [if_neg hb, eval_andg, eval_andg, (substModuleList_eval a m args).1]
  | .org args => by
      by_cases hb : Pdag.beq (.org args) m = true
      · simp only [substModule]
        rw [if_pos hb]
        exact constOf_eval a hb
      · simp only [substModule]
        rw [if_neg hb, eval_org, eval_org, (substModuleList_eval a m args).2.1]
  | .xorg g h => by
      by_cases hb : Pdag.beq (.xorg g h) m = true
      · simp only [substModule]
        rw [if_pos hb]
        exact constOf_eval a hb
      · simp only [substModule]
        rw [if_neg hb, eval_xorg, eval_xorg, substModule_eval a m g, substModule_eval a m h]
  | .nandg args => by
      by_cases hb : Pdag.beq (.nandg args) m = true
      · simp only [substModule]
        rw [if_pos hb]
        exact constOf_eval a hb
      · simp only [substModule]
        rw [if_neg hb, eval_nandg, eval_nandg, (substModuleList_eval a m args).1]
  | .norg args => by
      by_cases hb : Pdag.beq (.norg args) m = true
      · simp only [substModule]
        rw [if_pos hb]
        exact constOf_eval a hb
      · simp only [substModule]
        rw [if_neg hb, eval_norg, eval_norg, (substModuleList_eval a m args).2.1]
  | .implyg g h => by
      by_cases hb : Pdag.beq (.implyg g h) m = true
      · simp only [substModule]
        rw [if_pos hb]
        exact constOf_eval a hb
      · simp only [substModule]
        rw [if_neg hb, eval_implyg, eval_implyg, substModule_eval a m g, substModule_eval a m h]
  | .iffg g h => by
      by_cases hb : Pdag.beq (.iffg g h) m = true
      · simp only [substModule]
        rw [if_pos hb]
        exact constOf_eval a hb
      · simp only [substModule]
        rw [if_neg hb, eval_iffg, eval_iffg, substModule_eval a m g, substModule_eval a m h]
  | .atleast k args => by
      by_cases hb : Pdag.beq (.atleast k args) m = true
      · simp only [substModule]
        rw [if_pos hb]
        exact constOf_eval a hb
      · simp only [substModule]
        rw [if_neg hb, eval_atleast, eval_atleast, (substModuleList_eval a m args).2.2]
  | .nullg g => by
      by_cases hb : Pdag.beq (.nullg g) m = true
      · simp only [substModule]
        rw [if_pos hb]
        exact constOf_eval a hb
      · simp only [substModule]
        rw [if_neg hb, eval_nullg, eval_nullg, substModule_eval a m g]

theorem substModuleList_eval (a : Nat → Bool) (m : Pdag) :
    ∀ gs : List Pdag,
      Pdag.evalAll a (substModuleList m (m.eval a) gs) = Pdag.evalAll a gs
      ∧ Pdag.evalAny a (substModuleList m (m.eval a) gs) = Pdag.evalAny a gs
      ∧ Pdag.countTrue a (substModuleList m (m.eval a) gs) = Pdag.countTrue a gs
  | [] => by simp [substModuleList]
  | g :: gs => by
      have ih := substModuleList_eval a m gs
      have ihg := substModule_eval a m g
      simp [substModuleList, ihg, ih.1, ih.2.1, ih.2.2]

end

mutual

/-- Number of nodes of a PDAG term (a computable size measure used as
the canonical ordering key). -/
def Pdag.nodeCount : Pdag → Nat
  | .var _ => 1
  | .tru => 1
  | .fls => 1
  | .notg g => 1 + g.nodeCount
  | .andg args => 1 + Pdag.nodeCountList args
  | .org args => 1 + Pdag.nodeCountList args
  | .xorg g h => 1 + g.nodeCount + h.nodeCount
  | .nandg args => 1 + Pdag.nodeCountList args
  | .norg args => 1 + Pdag.nodeCountList args
  | .implyg g h => 1 + g.nodeCount + h.nodeCount
  | .iffg g h => 1 + g.nodeCount + h.nodeCount
  | .atleast _ args => 1 + Pdag.nodeCountList args
  | .nullg g => 1 + g.nodeCount

/-- Node count of an argument list. -/
def Pdag.nodeCountList : List Pdag → Nat
  | [] => 0
  | g :: gs => Pdag.nodeCount g + Pdag.nodeCountList gs

end

/-- Canonical argument ordering used as the hash-cons lookup key. -/
def argOrder (g h : Pdag) : Bool := decide (g.nodeCount ≤ h.nodeCount)

mutual

/-- Modelled from the spec: preprocessor pass 6, "Structural hashing":
a gate's canonical form sorts its argument list; in this tree
embedding structurally equal subgraphs then have identical
representations, which is what lets the hash-cons table share them. -/
def structuralHash : Pdag → Pdag
  | .var i => .var i
  | .tru => .tru
  | .fls => .fls
  | .notg g => .notg (structuralHash g)
  | .andg args => .andg (List.mergeSort (structuralHashList args) argOrder)
  | .org args => .org (List.mergeSort (structuralHashList args) argOrder)
  | .xorg g h => .xorg (structuralHash g) (structuralHash h)
  | .nandg args => .nandg (List.mergeSort (structuralHashList args) argOrder)
  | .norg args => .norg (List.mergeSort (structuralHashList args) argOrder)
  | .implyg g h => .implyg (structuralHash g) (structuralHash h)
  | .iffg g h => .iffg (structuralHash g) (structuralHash h)
  | .atleast k args => .atleast k (List.mergeSort (structuralHashList args) argOrder)
  | .nullg g => .nullg (structuralHash g)

/-- Argument-list version of `structuralHash`. -/
def structuralHashList : List Pdag → List Pdag
  | [] => []
  | g :: gs => structuralHash g :: structuralHashList gs

end

theorem evalAll_perm (a : Nat → Bool) {l₁ l₂ : List Pdag} (h : l₁.Perm l₂) :
    Pdag.evalAll a l₁ = Pdag.evalAll a l₂ := by
  induction h with
  | nil => rfl
  | cons x _ ih => rw [evalAll_cons, evalAll_cons, ih]
  | swap x y l =>
      rw [evalAll_cons, evalAll_cons, evalAll_cons, evalAll_cons, Bool.and_left_comm]
  | trans _ _ ih₁ ih₂ => rw [ih₁, ih₂]

theorem evalAny_perm (a : Nat → Bool) {l₁ l₂ : List Pdag} (h : l₁.Perm l₂) :
    Pdag.evalAny a l₁ = Pdag.evalAny a l₂ := by
  induction h with
  | nil => rfl
  | cons x _ ih => rw [evalAny_cons, evalAny_cons, ih]
  | swap x y l =>
      rw [evalAny_cons, evalAny_cons, evalAny_cons, evalAny_cons, Bool.or_left_comm]
  | trans _ _ ih₁ ih₂ => rw [ih₁, ih₂]

theorem countTrue_perm (a : Nat → Bool) {l₁ l₂ : List Pdag} (h : l₁.Perm l₂) :
    Pdag.countTrue a l₁ = Pdag.countTrue a l₂ := by
  induction h with
  | nil => rfl
  | cons x _ ih => rw [countTrue_cons, countTrue_cons, ih]
  | swap x y l =>
      rw [countTrue_cons, countTrue_cons, countTrue_cons, countTrue_cons,
        Nat.add_left_comm]
  | trans _ _ ih₁ ih₂ => rw [ih₁, ih₂]

mutual

theorem structuralHash_eval (a : Nat → Bool) :
    ∀ g : Pdag, (structuralHash g).eval a = g.eval a
  | .var i => by simp [structuralHash]
  | .tru => by simp [structuralHash]
  | .fls => by simp [structuralHash]
  | .notg g => by simp [structuralHash, structuralHash_eval a g]
  | .andg args => by
      rw [show structuralHash (.andg args)
          = .andg (List.mergeSort (structuralHashList args) argOrder) by
        simp [structuralHash]]
      rw [eval_andg, eval_andg,
        evalAll_perm a (List.mergeSort_perm (structuralHashList args) argOrder),
        (structuralHashList_eval a args).1]
  | .org args => by
      rw [show structuralHash (.org args)
          = .org (List.mergeSort (structuralHashList args) argOrder) by
        simp [structuralHash]]
      rw [eval_org, eval_org,
        evalAny_perm a (List.mergeSort_perm (structuralHashList args) argOrder),
        (structuralHashList_eval a args).2.1]
  | .xorg g h => by simp [structuralHash, structuralHash_eval a g, structuralHash_eval a h]
  | .nandg args => by
      rw [show structuralHash (.nandg args)
          = .nandg (List.mergeSort (structuralHashList args) argOrder) by
        simp [structuralHash]]
      rw [eval_nandg, eval_nandg,
        evalAll_perm a (List.mergeSort_perm (structuralHashList args) argOrder),
        (structuralHashList_eval a args).1]
  | .norg args => by
      rw [show structuralHash (.norg args)
          = .norg (List.mergeSort (structuralHashList args) argOrder) by
        simp [structuralHash]]
      rw [eval_norg, eval_norg,
        evalAny_perm a (List.mergeSort_perm (structuralHashList args) argOrder),
        (structuralHashList_eval a args).2.1]
  | .implyg g h => by
      simp [structuralHash, structuralHash_eval a g, structuralHash_eval a h]
  | .iffg g h => by simp [structuralHash, structuralHash_eval a g, structuralHash_eval a h]
  | .atleast k args => by
      rw [show structuralHash (.atleast k args)
          = .atleast k (List.mergeSort (structuralHashList args) argOrder) by
        simp [structuralHash]]
      rw [eval_atleast, eval_atleast,
        countTrue_perm a (List.mergeSort_perm (structuralHashList args) argOrder),
        (structuralHashList_eval a args).2.2]
  | .nullg g => by simp [structuralHash, structuralHash_eval a g]

theorem structuralHashList_eval (a : Nat → Bool) :
    ∀ gs : List Pdag,
      Pdag.evalAll a (structuralHashList gs) = Pdag.evalAll a gs
      ∧ Pdag.evalAny a (structuralHashList gs) = Pdag.evalAny a gs
      ∧ Pdag.countTrue a (structuralHashList gs) = Pdag.countTrue a gs
  | [] => by simp [structuralHashList]
  | g :: gs => by
      have ih := structuralHashList_eval a gs
      have ihg := structuralHash_eval a g
      simp [structuralHashList, ihg, ih.1, ih.2.1, ih.2.2]

end

/-- Split off the argument list of the first OR argument. -/
def splitFirstOr : List Pdag → Option (List Pdag × List Pdag)
  | [] => none
  | .org inner :: gs => some (inner, gs)
  | g :: gs =>
      match splitFirstOr gs with
      | some (inner, rest) => some (inner, g :: rest)
      | none => none

/-- Split off the argument list of the first AND argument. -/
def splitFirstAnd : List Pdag → Option (List Pdag × List Pdag)
  | [] => none
  | .andg inner :: gs => some (inner, gs)
  | g :: gs =>
      match splitFirstAnd gs with
      | some (inner, rest) => some (inner, g :: rest)
      | none => none

theorem splitFirstOr_eval (a : Nat → Bool) :
    ∀ (args inner rest : List Pdag), splitFirstOr args = some (inner, rest) →
      Pdag.evalAll a args = (Pdag.evalAny a inner && Pdag.evalAll a rest)
  | [], inner, rest, h => by simp [splitFirstOr] at h
  | g :: gs, inner, rest, h => by
      cases g
      case org xs =>
        simp only [splitFirstOr, Option.some.injEq, Prod.mk.injEq] at h
        rw [← h.1, ← h.2, evalAll_cons, eval_org]
      all_goals (
        simp only [splitFirstOr] at h
        cases hs : splitFirstOr gs with
        | none => rw [hs] at h; exact absurd h (by simp)
        | some p =>
            obtain ⟨inner2, rest2⟩ := p
            rw [hs] at h
            simp only [Option.some.injEq, Prod.mk.injEq] at h
            rw [← h.1, ← h.2, evalAll_cons, evalAll_cons,
              splitFirstOr_eval a gs inner2 rest2 hs, Bool.and_left_comm])

theorem splitFirstAnd_eval (a : Nat → Bool) :
    ∀ (args inner rest : List Pdag), splitFirstAnd args = some (inner, rest) →
      Pdag.evalAny a args = (Pdag.evalAll a inner || Pdag.evalAny a rest)
  | [], inner, rest, h => by simp [splitFirstAnd] at h
  | g :: gs, inner, rest, h => by
      cases g
      case andg xs =>
        simp only [splitFirstAnd, Option.some.injEq, Prod.mk.injEq] at h
        rw [← h.1, ← h.2, evalAny_cons, eval_andg]
      all_goals (
        simp only [splitFirstAnd] at h
        cases hs : splitFirstAnd gs with
        | none => rw [hs] at h; exact absurd h (by simp)
        | some p =>
            obtain ⟨inner2, rest2⟩ := p
            rw [hs] at h
            simp only [Option.some.injEq, Prod.mk.injEq] at h
            rw [← h.1, ← h.2, evalAny_cons, evalAny_cons,
              splitFirstAnd_eval a gs inner2 rest2 hs, Bool.or_left_comm])

theorem evalAny_distribAnd (a : Nat → Bool) (rest : List Pdag) :
    ∀ inner : List Pdag,
      Pdag.evalAny a (inner.map fun y => Pdag.andg (y :: rest))
        = (Pdag.evalAny a inner && Pdag.evalAll a rest)
  | [] => by simp
  | y :: ys => by
      rw [List.map_cons, evalAny_cons, evalAny_distribAnd a rest ys, evalAny_cons,
        eval_andg, evalAll_cons]
      cases y.eval a <;> cases Pdag.evalAll a rest <;> cases Pdag.evalAny a ys <;> rfl

theorem evalAll_distribOr (a : Nat → Bool) (rest : List Pdag) :
    ∀ inner : List Pdag,
      Pdag.evalAll a (inner.map fun y => Pdag.org (y :: rest))
        = (Pdag.evalAll a inner || Pdag.evalAny a rest)
  | [] => by simp
  | y :: ys => by
      rw [List.map_cons, evalAll_cons, evalAll_distribOr a rest ys, evalAll_cons,
        eval_org, evalAny_cons]
      cases y.eval a <;> cases Pdag.evalAny a rest <;> cases Pdag.evalAll a ys <;> rfl

mutual

/-- Modelled from the spec: preprocessor pass 7, "Gate decomposition /
distribution": a bounded distribution heuristic — the first OR
argument of an AND gate is distributed over the remaining arguments
(and dually for OR over AND), exposing common substructure while
limiting the growth to one distribution per gate. -/
def distribute : Pdag → Pdag
  | .var i => .var i
  | .tru => .tru
  | .fls => .fls
  | .notg g => .notg (distribute g)
  | .andg args =>
      match splitFirstOr (distributeList args) with
      | some (inner, rest) => .org (inner.map fun y => .andg (y :: rest))
      | none => .andg (distributeList args)
  | .org args =>
      match splitFirstAnd (distributeList args) with
      | some (inner, rest) => .andg (inner.map fun y => .org (y :: rest))
      | none => .org (distributeList args)
  | .xorg g h => .xorg (distribute g) (distribute h)
  | .nandg args => .nandg (distributeList args)
  | .norg args => .norg (distributeList args)
  | .implyg g h => .implyg (distribute g) (distribute h)
  | .iffg g h => .iffg (distribute g) (distribute h)
  | .atleast k args => .atleast k (distributeList args)
  | .nullg g => .nullg (distribute g)

/-- Argument-list version of `distribute`. -/
def distributeList : List Pdag → List Pdag
  | [] => []
  | g :: gs => distribute g :: distributeList gs

end

mutual

theorem distribute_eval (a : Nat → Bool) : ∀ g : Pdag, (distribute g).eval a = g.eval a
  | .var i => by simp [distribute]
  | .tru => by simp [distribute]
  | .fls => by simp [distribute]
  | .notg g => by simp [distribute, distribute_eval a g]
  | .andg args => by
      have ih := (distributeList_eval a args).1
      cases hs : splitFirstOr (distributeList args) with
      | none =>
          rw [show distribute (.andg args) = .andg (distributeList args) by
            simp [distribute, hs]]
          rw [eval_andg, eval_andg, ih]
      | some p =>
          obtain ⟨inner, rest⟩ := p
          rw [show distribute (.andg args) = .org (inner.map fun y => .andg (y :: rest)) by
            simp [distribute, hs]]
          rw [eval_org, evalAny_distribAnd,
            ← splitFirstOr_eval a (distributeList args) inner rest hs, eval_andg, ih]
  | .org args => by
      have ih := (distributeList_eval a args).2.1
      cases hs : splitFirstAnd (distributeList args) with
      | none =>
          rw [show distribute (.org args) = .org (distributeList args) by
            simp [distribute, hs]]
          rw [eval_org, eval_org, ih]
      | some p =>
          obtain ⟨inner, rest⟩ := p
          rw [show distribute (.org args) = .andg (inner.map fun y => .org (y :: rest)) by
            simp [distribute, hs]]
          rw [eval_andg, evalAll_distribOr,
            ← splitFirstAnd_eval a (distributeList args) inner rest hs, eval_org, ih]
  | .xorg g h => by simp [distribute, distribute_eval a g, distribute_eval a h]
  | .nandg args => by simp [distribute, (distributeList_eval a args).1]
  | .norg args => by simp [distribute, (distributeList_eval a args).2.1]
  | .implyg g h => by simp [distribute, distribute_eval a g, distribute_eval a h]
  | .iffg g h => by simp [distribute, distribute_eval a g, distribute_eval a h]
  | .atleast k args => by simp [distribute, (distributeList_eval a args).2.2]
  | .nullg g => by simp [distribute, distribute_eval a g]

theorem distributeList_eval (a : Nat → Bool) :
    ∀ gs : List Pdag,
      Pdag.evalAll a (distributeList gs) = Pdag.evalAll a gs
      ∧ Pdag.evalAny a (distributeList gs) = Pdag.evalAny a gs
      ∧ Pdag.countTrue a (distributeList gs) = Pdag.countTrue a gs
  | [] => by simp [distributeList]
  | g :: gs => by
      have ih := distributeList_eval a gs
      have ihg := distribute_eval a g
      simp [distributeList, ihg, ih.1, ih.2.1, ih.2.2]

end

/-- Modelled from the spec: one round of the preprocessor's rewrite
passes in the spec's order — connective normalization, constant
propagation, literal sinking / De Morgan, coalescing, Boolean
optimization, structural hashing, gate decomposition/distribution. -/
def preprocessStep (g : Pdag) : Pdag :=
  distribute (structuralHash (booleanOptimization
    (coalesce (pushComplements (propagateConstants (normalizeConnectives g))))))

/-- Modelled from the spec: the pass sequence applied to fixpoint —
rounds repeat until one leaves the PDAG unchanged or the fuel is
exhausted. -/
def preprocess : Nat → Pdag → Pdag
  | 0, g => g
  | fuel + 1, g =>
      if Pdag.beq g (preprocessStep g) then preprocessStep g
      else preprocess fuel (preprocessStep g)

theorem preprocessStep_eval (a : Nat → Bool) (g : Pdag) :
    (preprocessStep g).eval a = g.eval a := by
  rw [preprocessStep, distribute_eval, structuralHash_eval, booleanOptimization_eval,
    coalesce_eval, pushComplements_eval, propagateConstants_eval, normalizeConnectives_eval]

theorem preprocess_eval (a : Nat → Bool) : ∀ (fuel : Nat) (g : Pdag),
    (preprocess fuel g).eval a = g.eval a
  | 0, g => by simp [preprocess]
  | fuel + 1, g => by
      by_cases hb : Pdag.beq g (preprocessStep g) = true
      · simp only [preprocess, hb, if_true]
        exact preprocessStep_eval a g
      · simp only [preprocess, hb, Bool.false_eq_true, if_false]
        rw [preprocess_eval a fuel (preprocessStep g), preprocessStep_eval]

/-- C1: each preprocessor rewrite pass — connective normalization,
constant propagation, literal sinking / De Morgan, coalescing, Boolean
optimization (idempotence, contradiction/tautology folding,
absorption), module extraction (substituting a module's separately
computed value), structural hashing's canonical reordering, and gate
decomposition/distribution — preserves the Boolean function, and so
does the full pass sequence applied to fixpoint: for every assignment
of basic-event truth values, the preprocessed PDAG evaluates to the
same Boolean value as the original PDAG. -/
theorem preprocessor_preserves_boolean_function :
    (∀ (g : Pdag) (a : Nat → Bool), (normalizeConnectives g).eval a = g.eval a)
    ∧ (∀ (g : Pdag) (a : Nat → Bool), (propagateConstants g).eval a = g.eval a)
    ∧ (∀ (g : Pdag) (a : Nat → Bool), (pushComplements g).eval a = g.eval a)
    ∧ (∀ (g : Pdag) (a : Nat → Bool), (coalesce g).eval a = g.eval a)
    ∧ (∀ (g : Pdag) (a : Nat → Bool), (booleanOptimization g).eval a = g.eval a)
    ∧ (∀ (m g : Pdag) (a : Nat → Bool),
        (substModule m (m.eval a) g).eval a = g.eval a
        ∧ (extractModules g).1 = g)
    ∧ (∀ (g : Pdag) (a : Nat → Bool), (structuralHash g).eval a = g.eval a)
    ∧ (∀ (g : Pdag) (a : Nat → Bool), (distribute g).eval a = g.eval a)
    ∧ (∀ (g : Pdag) (a : Nat → Bool), (preprocessStep g).eval a = g.eval a)
    ∧ (∀ (fuel : Nat) (g : Pdag) (a : Nat → Bool), (preprocess fuel g).eval a = g.eval a) :=
  ⟨fun g a => normalizeConnectives_eval a g,
   fun g a => propagateConstants_eval a g,
   fun g a => pushComplements_eval a g,
   fun g a => coalesce_eval a g,
   fun g a => booleanOptimization_eval a g,
   fun m g a => ⟨substModule_eval a m g, rfl⟩,
   fun g a => structuralHash_eval a g,
   fun g a => distribute_eval a g,
   fun g a => preprocessStep_eval a g,
   fun fuel g a => preprocess_eval a fuel g⟩


/-! ## Probability calculations

Modelled from the spec: the probability calculator sources are not in
the snapshot; the exact (BDD-based) probability, the rare-event
approximation with its clamping/warning behaviour, and the MCUB
approximation are modelled from the spec and the repository's
probability-analysis documentation. Basic events are independent; the
exact probability of a Boolean function of the basic events is its
measure under the product measure on assignments. -/

/-- Probability weight of one assignment of truth values to the `n`
independent basic events (the product measure). -/
def weight (n : Nat) (p : Fin n → Rat) (omega : Fin n → Bool) : Rat :=
  ∏ i, (if omega i then p i else 1 - p i)

/-- 0/1 indicator of a Boolean. -/
def ind (b : Bool) : Rat := if b then 1 else 0

/-- The exact top-event probability of a Boolean function of the basic
events: the measure of its satisfying assignments.  This is the value
the BDD-based exact calculation computes. -/
def prob (n : Nat) (p : Fin n → Rat) (f : (Fin n → Bool) → Bool) : Rat :=
  ∑ omega : Fin n → Bool, weight n p omega * ind (f omega)

/-- A product (minimal cut set): positive and negative literals over the
basic events. -/
structure Product (n : Nat) where
  pos : Finset (Fin n)
  neg : Finset (Fin n)

/-- Does an assignment satisfy every literal of the product? -/
def Product.holds {n : Nat} (c : Product n) (omega : Fin n → Bool) : Bool :=
  decide ((∀ i ∈ c.pos, omega i = true) ∧ (∀ i ∈ c.neg, omega i = false))

/-- The probability of a product under independence: the product of its
literals' probabilities. -/
def productProb (n : Nat) (p : Fin n → Rat) (c : Product n) : Rat :=
  (∏ i ∈ c.pos, p i) * ∏ i ∈ c.neg, (1 - p i)

/-- An approximate probability result: the reported value together with
the clamping warning attached to the final report. -/
structure ApproxResult where
  value : Rat
  clampWarning : Bool

/-- Modelled from the spec: the rare-event approximation sums the
product probabilities; a value above one is adjusted to exactly one and
a warning is attached. -/
def rareEvent (qs : List Rat) : ApproxResult :=
  if 1 < qs.sum then ⟨1, true⟩ else ⟨qs.sum, false⟩

/-- Modelled from the spec: the MCUB approximation
`1 - ∏ (1 - P(product))`. -/
def mcub (qs : List Rat) : Rat :=
  1 - (qs.map (fun q => 1 - q)).prod

theorem sum_prod_split (n : Nat) (g : Fin n → Bool → Rat) :
    ∑ omega : Fin n → Bool, ∏ i, g i (omega i) = ∏ i, (g i true + g i false) := by
  rw [← Fintype.prod_sum g]
  exact Finset.prod_congr rfl fun i _ => Fintype.sum_bool (g i)

theorem sum_weight (n : Nat) (p : Fin n → Rat) :
    ∑ omega : Fin n → Bool, weight n p omega = 1 := by
  unfold weight
  rw [sum_prod_split n (fun i b => if b then p i else 1 - p i)]
  have h : ∀ i ∈ Finset.univ (α := Fin n),
      ((if true then p i else 1 - p i) + if false then p i else 1 - p i) = 1 := by
    intro i _
    simp
  rw [Finset.prod_congr rfl h, Finset.prod_const_one]

theorem weight_nonneg {n : Nat} {p : Fin n → Rat} (hp : ∀ i, 0 ≤ p i ∧ p i ≤ 1)
    (omega : Fin n → Bool) : 0 ≤ weight n p omega := by
  refine Finset.prod_nonneg fun i _ => ?_
  by_cases h : omega i = true
  · simpa [h] using (hp i).1
  · have h2 : omega i = false := by simpa using h
    simp only [h2, if_false, Bool.false_eq_true]
    linarith [(hp i).2]

theorem ind_nonneg (b : Bool) : 0 ≤ ind b := by cases b <;> simp [ind]

theorem ind_le_one (b : Bool) : ind b ≤ 1 := by cases b <;> simp [ind]

theorem prob_nonneg {n : Nat} {p : Fin n → Rat} (hp : ∀ i, 0 ≤ p i ∧ p i ≤ 1)
    (f : (Fin n → Bool) → Bool) : 0 ≤ prob n p f :=
  Finset.sum_nonneg fun omega _ => mul_nonneg (weight_nonneg hp omega) (ind_nonneg _)

theorem prob_mono {n : Nat} {p : Fin n → Rat} (hp : ∀ i, 0 ≤ p i ∧ p i ≤ 1)
    {f g : (Fin n → Bool) → Bool} (h : ∀ omega, f omega = true → g omega = true) :
    prob n p f ≤ prob n p g := by
  refine Finset.sum_le_sum fun omega _ => ?_
  refine mul_le_mul_of_nonneg_left ?_ (weight_nonneg hp omega)
  by_cases hf : f omega = true
  · rw [hf, h omega hf]
  · have h2 : f omega = false := by simpa using hf
    rw [h2]
    simpa [ind] using ind_nonneg (g omega)

theorem prob_true (n : Nat) (p : Fin n → Rat) : prob n p (fun _ => true) = 1 := by
  unfold prob
  simp only [ind, if_true, mul_one]
  exact sum_weight n p

theorem prob_le_one {n : Nat} {p : Fin n → Rat} (hp : ∀ i, 0 ≤ p i ∧ p i ≤ 1)
    (f : (Fin n → Bool) → Bool) : prob n p f ≤ 1 := by
  have h := prob_mono hp (f := f) (g := fun _ => true) (fun omega _ => rfl)
  rw [prob_true n p] at h
  exact h

theorem prob_compl (n : Nat) (p : Fin n → Rat) (f : (Fin n → Bool) → Bool) :
    prob n p (fun omega => !(f omega)) = 1 - prob n p f := by
  unfold prob
  rw [eq_sub_iff_add_eq, ← Finset.sum_add_distrib, ← sum_weight n p]
  refine Finset.sum_congr rfl fun omega _ => ?_
  cases h : f omega <;> simp [h, ind]

theorem prob_or_le {n : Nat} {p : Fin n → Rat} (hp : ∀ i, 0 ≤ p i ∧ p i ≤ 1)
    (f g : (Fin n → Bool) → Bool) :
    prob n p (fun omega => f omega || g omega) ≤ prob n p f + prob n p g := by
  unfold prob
  rw [← Finset.sum_add_distrib]
  refine Finset.sum_le_sum fun omega _ => ?_
  have hw := weight_nonneg hp omega
  cases hf : f omega <;> cases hg : g omega <;> (simp [ind, hf, hg]; try nlinarith)

theorem prob_or_disjoint {n : Nat} {p : Fin n → Rat} (f g : (Fin n → Bool) → Bool)
    (hd : ∀ omega, ¬(f omega = true ∧ g omega = true)) :
    prob n p (fun omega => f omega || g omega) = prob n p f + prob n p g := by
  unfold prob
  rw [← Finset.sum_add_distrib]
  refine Finset.sum_congr rfl fun omega _ => ?_
  cases hf : f omega <;> cases hg : g omega <;> simp [ind, hf, hg]
  exact ((hd omega) ⟨hf, hg⟩).elim

/-- Per-basic-event factor combining the assignment weight with the
product's literal requirement on that event. -/
def litFactor {n : Nat} (c : Product n) (p : Fin n → Rat) (i : Fin n) (b : Bool) : Rat :=
  (if b then p i else 1 - p i) *
    (if i ∈ c.pos then ind b else if i ∈ c.neg then ind (!b) else 1)

theorem ind_holds_eq_prod {n : Nat} (c : Product n) (hd : Disjoint c.pos c.neg)
    (omega : Fin n → Bool) :
    ind (c.holds omega)
      = ∏ i, (if i ∈ c.pos then ind (omega i) else if i ∈ c.neg then ind (!(omega i)) else 1) := by
  by_cases h : c.holds omega = true
  · rw [h]
    have hsat := of_decide_eq_true h
    refine (Finset.prod_eq_one fun i _ => ?_).symm
    by_cases h1 : i ∈ c.pos
    · simp [h1, hsat.1 i h1, ind]
    · by_cases h2 : i ∈ c.neg
      · simp [h1, h2, hsat.2 i h2, ind]
      · simp [h1, h2]
  · have h2 : c.holds omega = false := by simpa using h
    rw [h2]
    have h3 : ¬((∀ i ∈ c.pos, omega i = true) ∧ (∀ i ∈ c.neg, omega i = false)) := by
      intro hc
      exact h (decide_eq_true hc)
    rw [Classical.not_and_iff_or_not_not] at h3
    rcases h3 with h3 | h3
    · push_neg at h3
      obtain ⟨i, hi, hne⟩ := h3
      have h4 : omega i = false := by simpa using hne
      refine ((Finset.prod_eq_zero (Finset.mem_univ i) ?_)).symm
      simp [hi, h4, ind]
    · push_neg at h3
      obtain ⟨i, hi, hne⟩ := h3
      have h4 : omega i = true := by simpa using hne
      have h5 : i ∉ c.pos := Finset.disjoint_right.1 hd hi
      refine ((Finset.prod_eq_zero (Finset.mem_univ i) ?_)).symm
      simp [h5, hi, h4, ind]

theorem prod_if_split (n : Nat) (p : Fin n → Rat) (s t : Finset (Fin n)) (hd : Disjoint s t) :
    (∏ i, (if i ∈ s then p i else if i ∈ t then 1 - p i else 1))
      = (∏ i ∈ s, p i) * ∏ i ∈ t, (1 - p i) := by
  rw [← Finset.prod_mul_prod_compl s]
  congr 1
  · exact Finset.prod_congr rfl fun i hi => by simp [hi]
  · have hsub : t ⊆ sᶜ := fun i hi => Finset.mem_compl.2 (Finset.disjoint_right.1 hd hi)
    rw [← Finset.prod_sdiff hsub]
    have h1 : (∏ i ∈ sᶜ \ t, (if i ∈ s then p i else if i ∈ t then 1 - p i else 1)) = 1 := by
      refine Finset.prod_eq_one fun i hi => ?_
      have h2 := Finset.mem_sdiff.1 hi
      have h3 : i ∉ s := Finset.mem_compl.1 h2.1
      simp [h3, h2.2]
    rw [h1, one_mul]
    refine Finset.prod_congr rfl fun i hi => ?_
    have h3 : i ∉ s := Finset.mem_compl.1 (hsub hi)
    simp [h3, hi]

theorem prob_product (n : Nat) (p : Fin n → Rat) (c : Product n)
    (hd : Disjoint c.pos c.neg) :
    prob n p c.holds = productProb n p c := by
  have h1 : prob n p c.holds = ∑ omega : Fin n → Bool, ∏ i, litFactor c p i (omega i) := by
    unfold prob weight
    refine Finset.sum_congr rfl fun omega _ => ?_
    rw [ind_holds_eq_prod c hd omega, ← Finset.prod_mul_distrib]
    exact Finset.prod_congr rfl fun i _ => rfl
  rw [h1, sum_prod_split n (litFactor c p)]
  have h2 : ∀ i ∈ Finset.univ (α := Fin n),
      litFactor c p i true + litFactor c p i false
        = (if i ∈ c.pos then p i else if i ∈ c.neg then 1 - p i else 1) := by
    intro i _
    by_cases h3 : i ∈ c.pos
    · simp [litFactor, h3, ind]
    · by_cases h4 : i ∈ c.neg
      · simp [litFactor, h3, h4, ind]
      · simp [litFactor, h3, h4, ind]
  rw [Finset.prod_congr rfl h2, prod_if_split n p c.pos c.neg hd]
  rfl

theorem prob_false (n : Nat) (p : Fin n → Rat) : prob n p (fun _ => false) = 0 := by
  unfold prob
  simp [ind]

theorem prob_congr {n : Nat} (p : Fin n → Rat) {f g : (Fin n → Bool) → Bool}
    (h : ∀ omega, f omega = g omega) : prob n p f = prob n p g :=
  Finset.sum_congr rfl fun omega _ => by rw [h omega]

/-- Restriction of a Boolean function by fixing basic event 0. -/
def restrict {n : Nat} (f : (Fin (n + 1) → Bool) → Bool) (b : Bool) : (Fin n → Bool) → Bool :=
  fun omega => f (Fin.cons b omega)

/-- Assignments over `n+1` events, viewed as the value of event 0 paired
with an assignment of the remaining events. -/
def consEquiv (n : Nat) : Bool × (Fin n → Bool) ≃ (Fin (n + 1) → Bool) where
  toFun x := Fin.cons x.1 x.2
  invFun omega := (omega 0, fun i => omega i.succ)
  left_inv x := by
    obtain ⟨b, omega⟩ := x
    simp [Fin.cons_zero, Fin.cons_succ]
  right_inv omega := Fin.cons_self_tail omega

theorem weight_cons (n : Nat) (p : Fin (n + 1) → Rat) (b : Bool) (omega : Fin n → Bool) :
    weight (n + 1) p (Fin.cons b omega)
      = (if b then p 0 else 1 - p 0) * weight n (fun i => p i.succ) omega := by
  unfold weight
  rw [Fin.prod_univ_succ]
  simp [Fin.cons_zero, Fin.cons_succ]

theorem prob_succ (n : Nat) (p : Fin (n + 1) → Rat) (f : (Fin (n + 1) → Bool) → Bool) :
    prob (n + 1) p f
      = (1 - p 0) * prob n (fun i => p i.succ) (restrict f false)
        + p 0 * prob n (fun i => p i.succ) (restrict f true) := by
  unfold prob
  rw [← Equiv.sum_comp (consEquiv n) (fun omega => weight (n + 1) p omega * ind (f omega))]
  rw [Fintype.sum_prod_type, Fintype.sum_bool]
  rw [add_comm, Finset.mul_sum, Finset.mul_sum]
  congr 1
  · refine Finset.sum_congr rfl fun omega _ => ?_
    show weight (n + 1) p (Fin.cons false omega) * ind (f (Fin.cons false omega)) = _
    rw [weight_cons]
    simp [restrict, mul_assoc]
  · refine Finset.sum_congr rfl fun omega _ => ?_
    show weight (n + 1) p (Fin.cons true omega) * ind (f (Fin.cons true omega)) = _
    rw [weight_cons]
    simp [restrict, mul_assoc]

/-- `f` is decreasing (antitone) in every basic event: enlarging the set
of failed basic events cannot turn `f` from false to true. -/
def Decreasing {n : Nat} (f : (Fin n → Bool) → Bool) : Prop :=
  ∀ omega omega', (∀ i, omega i = true → omega' i = true) →
    f omega' = true → f omega = true

theorem Decreasing.restrictPres {n : Nat} {f : (Fin (n + 1) → Bool) → Bool}
    (hf : Decreasing f) (b : Bool) : Decreasing (restrict f b) := by
  intro omega omega' hle h
  refine hf (Fin.cons b omega) (Fin.cons b omega') ?_ h
  intro i
  refine Fin.cases ?_ ?_ i
  · simp [Fin.cons_zero]
  · intro j
    simp only [Fin.cons_succ]
    exact hle j

theorem restrict_true_le {n : Nat} {f : (Fin (n + 1) → Bool) → Bool} (hf : Decreasing f) :
    ∀ omega, restrict f true omega = true → restrict f false omega = true := by
  intro omega h
  refine hf (Fin.cons false omega) (Fin.cons true omega) ?_ h
  intro i
  refine Fin.cases ?_ ?_ i
  · simp [Fin.cons_zero]
  · intro j
    simp only [Fin.cons_succ]
    exact id

/-- The Harris correlation inequality on the product measure over
assignments: two functions that are both decreasing in every basic event
are non-negatively correlated. -/
theorem harris : ∀ (n : Nat) (p : Fin n → Rat), (∀ i, 0 ≤ p i ∧ p i ≤ 1) →
    ∀ f g : (Fin n → Bool) → Bool, Decreasing f → Decreasing g →
      prob n p f * prob n p g ≤ prob n p (fun omega => f omega && g omega)
  | 0, p, _, f, g, _, _ => by
      have h1 : ∀ h : (Fin 0 → Bool) → Bool, prob 0 p h = ind (h default) := by
        intro h
        unfold prob
        rw [Fintype.sum_unique]
        have h2 : ∀ omega : Fin 0 → Bool, weight 0 p omega = 1 := by
          intro omega
          unfold weight
          simp
        rw [h2, one_mul]
        exact congrArg (fun x => ind (h x)) (Subsingleton.elim _ _)
      rw [h1 f, h1 g, h1 (fun omega => f omega && g omega)]
      cases hfd : f default <;> cases hgd : g default <;> simp [ind]
  | n + 1, p, hp, f, g, hf, hg => by
      have hp' : ∀ i : Fin n, 0 ≤ (fun i : Fin n => p i.succ) i ∧ (fun i : Fin n => p i.succ) i ≤ 1 :=
        fun i => hp i.succ
      have ih0 := harris n (fun i => p i.succ) hp' (restrict f false) (restrict g false)
        (hf.restrictPres false) (hg.restrictPres false)
      have ih1 := harris n (fun i => p i.succ) hp' (restrict f true) (restrict g true)
        (hf.restrictPres true) (hg.restrictPres true)
      have hA : prob n (fun i => p i.succ) (restrict f true)
          ≤ prob n (fun i => p i.succ) (restrict f false) := prob_mono hp' (restrict_true_le hf)
      have hB : prob n (fun i => p i.succ) (restrict g true)
          ≤ prob n (fun i => p i.succ) (restrict g false) := prob_mono hp' (restrict_true_le hg)
      have hq0 := (hp 0).1
      have hq1 := (hp 0).2
      rw [prob_succ n p f, prob_succ n p g, prob_succ n p (fun omega => f omega && g omega)]
      have e0 : restrict (fun omega => f omega && g omega) false
          = fun omega => restrict f false omega && restrict g false omega := rfl
      have e1 : restrict (fun omega => f omega && g omega) true
          = fun omega => restrict f true omega && restrict g true omega := rfl
      rw [e0, e1]
      have hkey : (0:Rat) ≤ p 0 * (1 - p 0)
          * ((prob n (fun i => p i.succ) (restrict f false)
              - prob n (fun i => p i.succ) (restrict f true))
            * (prob n (fun i => p i.succ) (restrict g false)
              - prob n (fun i => p i.succ) (restrict g true))) :=
        mul_nonneg (mul_nonneg hq0 (by linarith))
          (mul_nonneg (by linarith) (by linarith))
      nlinarith [ih0, ih1, hkey, hq0, hq1]

/-- The top event of the cut-set representation: some product holds. -/
def anyHolds {n : Nat} (cs : List (Product n)) (omega : Fin n → Bool) : Bool :=
  cs.any fun c => c.holds omega

/-- All minimal cut sets fail to occur. -/
def noneHolds {n : Nat} (cs : List (Product n)) (omega : Fin n → Bool) : Bool :=
  cs.all fun c => !(c.holds omega)

theorem anyHolds_eq_not_noneHolds {n : Nat} (cs : List (Product n)) (omega : Fin n → Bool) :
    anyHolds cs omega = !(noneHolds cs omega) := by
  induction cs with
  | nil => simp [anyHolds, noneHolds]
  | cons c cs ih =>
      simp only [anyHolds, noneHolds, List.any_cons, List.all_cons, Bool.not_and,
        Bool.not_not] at ih ⊢
      rw [ih]

theorem prob_list_any_le {n : Nat} {p : Fin n → Rat} (hp : ∀ i, 0 ≤ p i ∧ p i ≤ 1) :
    ∀ fs : List ((Fin n → Bool) → Bool),
      prob n p (fun omega => fs.any (fun f => f omega)) ≤ (fs.map (prob n p)).sum
  | [] => by
      have h : prob n p (fun omega => ([] : List ((Fin n → Bool) → Bool)).any (fun f => f omega)) = 0 :=
        prob_false n p
      rw [h]
      simp
  | f :: fs => by
      have ih := prob_list_any_le hp fs
      have h1 : prob n p (fun omega => (f :: fs).any (fun f => f omega))
          = prob n p (fun omega => f omega || fs.any (fun f => f omega)) :=
        prob_congr p fun omega => by simp
      have h2 := prob_or_le hp f (fun omega => fs.any (fun f => f omega))
      rw [h1]
      simp only [List.map_cons, List.sum_cons]
      linarith

theorem prob_anyHolds_le_sum {n : Nat} {p : Fin n → Rat} (hp : ∀ i, 0 ≤ p i ∧ p i ≤ 1) :
    ∀ cs : List (Product n), (∀ c ∈ cs, Disjoint c.pos c.neg) →
      prob n p (anyHolds cs) ≤ (cs.map (productProb n p)).sum
  | [], _ => by
      have h : prob n p (anyHolds ([] : List (Product n))) = 0 := prob_false n p
      rw [h]
      simp
  | c :: cs, h => by
      have ih := prob_anyHolds_le_sum hp cs (fun d hd => h d (List.mem_cons_of_mem c hd))
      have h1 : prob n p (anyHolds (c :: cs))
          = prob n p (fun omega => c.holds omega || anyHolds cs omega) :=
        prob_congr p fun omega => by simp [anyHolds]
      have h2 := prob_or_le hp c.holds (anyHolds cs)
      have h3 : prob n p c.holds = productProb n p c :=
        prob_product n p c (h c (List.mem_cons_self _ _))
      rw [h1]
      simp only [List.map_cons, List.sum_cons]
      linarith [h2, ih, h3]

theorem productProb_mem_unit {n : Nat} {p : Fin n → Rat} (hp : ∀ i, 0 ≤ p i ∧ p i ≤ 1)
    (c : Product n) (hd : Disjoint c.pos c.neg) :
    0 ≤ productProb n p c ∧ productProb n p c ≤ 1 := by
  rw [← prob_product n p c hd]
  exact ⟨prob_nonneg hp c.holds, prob_le_one hp c.holds⟩

/-- A coherent product (positive literals only) has an increasing
indicator; its negation is decreasing. -/
theorem decreasing_not_holds {n : Nat} (c : Product n) (hneg : c.neg = ∅) :
    Decreasing (fun omega => !(c.holds omega)) := by
  intro omega omega' hle h
  have mono : c.holds omega = true → c.holds omega' = true := by
    intro hh
    have hsat := of_decide_eq_true hh
    refine decide_eq_true ⟨fun i hi => hle i (hsat.1 i hi), fun i hi => ?_⟩
    rw [hneg] at hi
    exact absurd hi (Finset.not_mem_empty i)
  cases hh : c.holds omega with
  | false => simp [hh]
  | true =>
      have h' : (!(c.holds omega')) = true := h
      rw [mono hh] at h'
      simp at h'

theorem decreasing_and {n : Nat} {f g : (Fin n → Bool) → Bool}
    (hf : Decreasing f) (hg : Decreasing g) :
    Decreasing (fun omega => f omega && g omega) := by
  intro omega omega' hle h
  simp only [Bool.and_eq_true] at h ⊢
  exact ⟨hf omega omega' hle h.1, hg omega omega' hle h.2⟩

theorem decreasing_noneHolds {n : Nat} :
    ∀ cs : List (Product n), (∀ c ∈ cs, c.neg = ∅) → Decreasing (noneHolds cs)
  | [], _ => by
      intro omega omega' _ h
      exact h
  | c :: cs, h => by
      have ih := decreasing_noneHolds cs (fun d hd => h d (List.mem_cons_of_mem c hd))
      have hc := decreasing_not_holds c (h c (List.mem_cons_self _ _))
      have hand := decreasing_and hc ih
      intro omega omega' hle hh
      have h1 : noneHolds (c :: cs) omega' = (!(c.holds omega') && noneHolds cs omega') := by
        simp [noneHolds]
      have h2 : noneHolds (c :: cs) omega = (!(c.holds omega) && noneHolds cs omega) := by
        simp [noneHolds]
      rw [h2]
      rw [h1] at hh
      exact hand omega omega' hle hh

theorem prod_one_sub_le_prob_noneHolds {n : Nat} {p : Fin n → Rat}
    (hp : ∀ i, 0 ≤ p i ∧ p i ≤ 1) :
    ∀ cs : List (Product n), (∀ c ∈ cs, c.neg = ∅) →
      ((cs.map (productProb n p)).map (fun q => 1 - q)).prod ≤ prob n p (noneHolds cs)
  | [], _ => by
      have h : prob n p (noneHolds ([] : List (Product n))) = 1 := prob_true n p
      rw [h]
      simp
  | c :: cs, h => by
      have hneg := h c (List.mem_cons_self _ _)
      have hd : Disjoint c.pos c.neg := by
        rw [hneg]
        exact Finset.disjoint_empty_right c.pos
      have ih := prod_one_sub_le_prob_noneHolds hp cs
        (fun d hdm => h d (List.mem_cons_of_mem c hdm))
      have hq := productProb_mem_unit hp c hd
      have hc : prob n p (fun omega => !(c.holds omega)) = 1 - productProb n p c := by
        rw [prob_compl, prob_product n p c hd]
      have hharris := harris n p hp (fun omega => !(c.holds omega)) (noneHolds cs)
        (decreasing_not_holds c hneg)
        (decreasing_noneHolds cs (fun d hdm => h d (List.mem_cons_of_mem c hdm)))
      have hrw : prob n p (fun omega => (!(c.holds omega)) && noneHolds cs omega)
          = prob n p (noneHolds (c :: cs)) :=
        prob_congr p fun omega => by simp [noneHolds]
      rw [hrw, hc] at hharris
      have hstep : (1 - productProb n p c) * ((cs.map (productProb n p)).map (fun q => 1 - q)).prod
          ≤ (1 - productProb n p c) * prob n p (noneHolds cs) :=
        mul_le_mul_of_nonneg_left ih (by linarith [hq.2])
      simp only [List.map_cons, List.prod_cons]
      linarith

theorem prob_or_add (n : Nat) (p : Fin n → Rat) (f g : (Fin n → Bool) → Bool) :
    prob n p (fun omega => f omega || g omega) + prob n p (fun omega => f omega && g omega)
      = prob n p f + prob n p g := by
  unfold prob
  rw [← Finset.sum_add_distrib, ← Finset.sum_add_distrib]
  refine Finset.sum_congr rfl fun omega _ => ?_
  cases hf : f omega <;> cases hg : g omega <;> simp [ind, hf, hg]

theorem prob_or_of_null {n : Nat} {p : Fin n → Rat} {f g : (Fin n → Bool) → Bool}
    (h : prob n p (fun omega => f omega && g omega) = 0) :
    prob n p (fun omega => f omega || g omega) = prob n p f + prob n p g := by
  have h1 := prob_or_add n p f g
  linarith

theorem prob_and_anyHolds_null {n : Nat} {p : Fin n → Rat} (hp : ∀ i, 0 ≤ p i ∧ p i ≤ 1)
    (c : Product n) :
    ∀ cs : List (Product n),
      (∀ d ∈ cs, prob n p (fun omega => c.holds omega && d.holds omega) = 0) →
      prob n p (fun omega => c.holds omega && anyHolds cs omega) = 0
  | [], _ => by
      have h1 : prob n p (fun omega => c.holds omega && anyHolds ([] : List (Product n)) omega)
          = prob n p (fun _ => false) :=
        prob_congr p fun omega => by simp [anyHolds]
      rw [h1, prob_false]
  | d :: ds, hnull => by
      have ih := prob_and_anyHolds_null hp c ds
        (fun e he => hnull e (List.mem_cons_of_mem d he))
      have hd0 := hnull d (List.mem_cons_self _ _)
      have h1 : prob n p (fun omega => c.holds omega && anyHolds (d :: ds) omega)
          = prob n p (fun omega =>
              (c.holds omega && d.holds omega) || (c.holds omega && anyHolds ds omega)) :=
        prob_congr p fun omega => by
          cases hc : c.holds omega <;> simp [anyHolds, hc]
      have h2 := prob_or_le hp (fun omega => c.holds omega && d.holds omega)
        (fun omega => c.holds omega && anyHolds ds omega)
      have h3 := prob_nonneg hp (fun omega => c.holds omega && anyHolds (d :: ds) omega)
      rw [h1] at h3 ⊢
      linarith

theorem prob_anyHolds_eq_sum {n : Nat} {p : Fin n → Rat} (hp : ∀ i, 0 ≤ p i ∧ p i ≤ 1) :
    ∀ cs : List (Product n), (∀ c ∈ cs, Disjoint c.pos c.neg) →
      List.Pairwise
        (fun c d => prob n p (fun omega => c.holds omega && d.holds omega) = 0) cs →
      prob n p (anyHolds cs) = (cs.map (productProb n p)).sum
  | [], _, _ => by
      have h : prob n p (anyHolds ([] : List (Product n))) = 0 := prob_false n p
      rw [h]
      simp
  | c :: cs, h, hpw => by
      rw [List.pairwise_cons] at hpw
      have ih := prob_anyHolds_eq_sum hp cs (fun d hd => h d (List.mem_cons_of_mem c hd)) hpw.2
      have h1 : prob n p (anyHolds (c :: cs))
          = prob n p (fun omega => c.holds omega || anyHolds cs omega) :=
        prob_congr p fun omega => by simp [anyHolds]
      have h2 : prob n p (fun omega => c.holds omega && anyHolds cs omega) = 0 :=
        prob_and_anyHolds_null hp c cs hpw.1
      have h3 := prob_or_of_null h2
      have h4 : prob n p c.holds = productProb n p c :=
        prob_product n p c (h c (List.mem_cons_self _ _))
      rw [h1, h3, h4, ih]
      simp

theorem holds_and_coherent {n : Nat} (c d : Product n) (hc : c.neg = ∅) (hd : d.neg = ∅)
    (omega : Fin n → Bool) :
    (c.holds omega && d.holds omega)
      = (Product.mk (c.pos ∪ d.pos) ∅ : Product n).holds omega := by
  have h1 : (c.holds omega && d.holds omega) = true
      ↔ (Product.mk (c.pos ∪ d.pos) ∅ : Product n).holds omega = true := by
    unfold Product.holds
    rw [hc, hd]
    simp only [Bool.and_eq_true, decide_eq_true_eq, Finset.not_mem_empty, false_implies,
      implies_true, and_true, Finset.mem_union]
    constructor
    · rintro ⟨ha, hb⟩ i hi
      rcases hi with hi | hi
      · exact ha i hi
      · exact hb i hi
    · intro hall
      exact ⟨fun i hi => hall i (Or.inl hi), fun i hi => hall i (Or.inr hi)⟩
  cases hL : (c.holds omega && d.holds omega)
  · cases hR : (Product.mk (c.pos ∪ d.pos) ∅ : Product n).holds omega
    · rfl
    · rw [hL] at h1
      exact absurd (h1.2 hR) (by simp)
  · rw [hL] at h1
    rw [h1.1 rfl]

theorem productProb_mul_eq_zero {n : Nat} {p : Fin n → Rat} (c d : Product n)
    (hc : c.neg = ∅) (hd : d.neg = ∅)
    (hnull : prob n p (fun omega => c.holds omega && d.holds omega) = 0) :
    productProb n p c * productProb n p d = 0 := by
  have h1 : prob n p (fun omega => c.holds omega && d.holds omega)
      = productProb n p (Product.mk (c.pos ∪ d.pos) ∅) := by
    rw [prob_congr p (holds_and_coherent c d hc hd)]
    exact prob_product n p _ (Finset.disjoint_empty_right _)
  rw [h1] at hnull
  unfold productProb at hnull ⊢
  simp only [Finset.prod_empty, mul_one] at hnull
  rw [hc, hd]
  simp only [Finset.prod_empty, mul_one]
  rcases Finset.prod_eq_zero_iff.1 hnull with ⟨i, hi, hpi⟩
  rcases Finset.mem_union.1 hi with hi | hi
  · rw [Finset.prod_eq_zero hi hpi]
    ring
  · rw [Finset.prod_eq_zero hi hpi]
    ring

theorem mul_sum_zero (q : Rat) : ∀ qs : List Rat, (∀ x ∈ qs, q * x = 0) → q * qs.sum = 0
  | [], _ => by simp
  | x :: xs, h => by
      have ih := mul_sum_zero q xs (fun y hy => h y (List.mem_cons_of_mem x hy))
      have hx := h x (List.mem_cons_self _ _)
      simp only [List.sum_cons, mul_add, hx, ih, add_zero]

theorem one_sub_prod_eq_sum :
    ∀ qs : List Rat, List.Pairwise (fun a b => a * b = 0) qs →
      1 - (qs.map (fun q => 1 - q)).prod = qs.sum
  | [], _ => by simp
  | q :: qs, hpw => by
      rw [List.pairwise_cons] at hpw
      have ih := one_sub_prod_eq_sum qs hpw.2
      have hz : q * qs.sum = 0 := mul_sum_zero q qs hpw.1
      simp only [List.map_cons, List.prod_cons, List.sum_cons]
      have hR : (qs.map (fun q => 1 - q)).prod = 1 - qs.sum := by linarith
      rw [hR]
      have h4 : (1 - q) * (1 - qs.sum) = 1 - q - qs.sum + q * qs.sum := by ring
      rw [h4, hz]
      ring

/-- C2: For every fault tree — a Boolean function `f` of the independent
basic events given by its list of minimal cut sets `cs` — and every
probability vector with entries in [0,1], the rare-event approximation
is at least the exact top-event probability; for every coherent tree
(products of positive literals only) the MCUB result is at least the
exact probability; and when the minimal cut sets are pairwise disjoint
events (each pairwise joint probability vanishes) both approximations
equal the exact probability. -/
theorem approximation_bounds {n : Nat} (p : Fin n → Rat) (f : (Fin n → Bool) → Bool)
    (cs : List (Product n))
    (hp : ∀ i, 0 ≤ p i ∧ p i ≤ 1)
    (hlit : ∀ c ∈ cs, Disjoint c.pos c.neg)
    (hcover : ∀ omega, f omega = anyHolds cs omega) :
    (prob n p f ≤ (rareEvent (cs.map (productProb n p))).value)
    ∧ ((∀ c ∈ cs, c.neg = ∅) → prob n p f ≤ mcub (cs.map (productProb n p)))
    ∧ (List.Pairwise
         (fun c d => prob n p (fun omega => c.holds omega && d.holds omega) = 0) cs →
        (rareEvent (cs.map (productProb n p))).value = prob n p f
        ∧ ((∀ c ∈ cs, c.neg = ∅) → mcub (cs.map (productProb n p)) = prob n p f)) := by
  have hpf : prob n p f = prob n p (anyHolds cs) := prob_congr p hcover
  refine ⟨?_, ?_, ?_⟩
  · unfold rareEvent
    by_cases h : 1 < (cs.map (productProb n p)).sum
    · simp only [h, if_true]
      exact prob_le_one hp f
    · simp only [h, if_false]
      rw [hpf]
      exact prob_anyHolds_le_sum hp cs hlit
  · intro hcoh
    have h1 : prob n p (anyHolds cs) = 1 - prob n p (noneHolds cs) := by
      rw [← prob_compl n p (noneHolds cs)]
      exact prob_congr p (anyHolds_eq_not_noneHolds cs)
    have h2 := prod_one_sub_le_prob_noneHolds hp cs hcoh
    rw [hpf, h1]
    unfold mcub
    linarith
  · intro hpw
    have hsum := prob_anyHolds_eq_sum hp cs hlit hpw
    constructor
    · unfold rareEvent
      have hle : (cs.map (productProb n p)).sum ≤ 1 := by
        rw [← hsum]
        exact prob_le_one hp (anyHolds cs)
      have h : ¬(1 < (cs.map (productProb n p)).sum) := not_lt.2 hle
      simp only [h, if_false]
      exact (hpf.trans hsum).symm
    · intro hcoh
      have hpz : List.Pairwise (fun a b => a * b = 0) (cs.map (productProb n p)) := by
        refine List.pairwise_map.2 (List.Pairwise.imp_of_mem ?_ hpw)
        intro c d hcm hdm hnull
        exact productProb_mul_eq_zero c d (hcoh c hcm) (hcoh d hdm) hnull
      have h3 := one_sub_prod_eq_sum (cs.map (productProb n p)) hpz
      unfold mcub
      rw [h3]
      exact (hpf.trans hsum).symm

/-- Witness for C2 at the spec's scenario: `OR(a,b)` with two singleton
positive cut sets and p(a)=p(b)=1/10. -/
theorem approximation_bounds_witness :
    prob 2 (fun _ => (1:Rat)/10) (fun omega => omega 0 || omega 1)
      ≤ (rareEvent (([⟨{0}, ∅⟩, ⟨{1}, ∅⟩] : List (Product 2)).map
          (productProb 2 (fun _ => (1:Rat)/10)))).value :=
  (approximation_bounds (fun _ => (1:Rat)/10) (fun omega => omega 0 || omega 1)
    [⟨{0}, ∅⟩, ⟨{1}, ∅⟩] (fun i => by norm_num)
    (by intro c hc; fin_cases hc <;> simp)
    (by decide)).1

/-- C3: whenever the rare-event sum of product probabilities exceeds 1,
the reported probability is adjusted to exactly 1 and the clamping
warning is attached; the warning is present iff clamping occurred; and
for `OR(a,b)` with p(a)=p(b)=0.6 the rare-event sum is 1.2, clamped to
1.0 with a warning. -/
theorem rare_event_clamping :
    (∀ qs : List Rat, 1 < qs.sum → rareEvent qs = ⟨1, true⟩)
    ∧ (∀ qs : List Rat, ((rareEvent qs).clampWarning = true ↔ 1 < qs.sum))
    ∧ ((([⟨{0}, ∅⟩, ⟨{1}, ∅⟩] : List (Product 2)).map
          (productProb 2 (fun _ => (3:Rat)/5))).sum = 6/5
        ∧ rareEvent ((([⟨{0}, ∅⟩, ⟨{1}, ∅⟩] : List (Product 2)).map
            (productProb 2 (fun _ => (3:Rat)/5)))) = ⟨1, true⟩) := by
  have hsum : (([⟨{0}, ∅⟩, ⟨{1}, ∅⟩] : List (Product 2)).map
      (productProb 2 (fun _ => (3:Rat)/5))).sum = 6/5 := by
    simp [productProb]
    norm_num
  refine ⟨?_, ?_, hsum, ?_⟩
  · intro qs h
    unfold rareEvent
    simp [h]
  · intro qs
    unfold rareEvent
    by_cases h : 1 < qs.sum
    · simp [h]
    · simp [h]
  · unfold rareEvent
    rw [hsum]
    norm_num

/-- Witness for C3: a sum of 1.2 over the rare-event products is clamped
to 1 with the warning set. -/
theorem rare_event_clamping_witness :
    rareEvent [(3:Rat)/5, 3/5] = ⟨1, true⟩ :=
  rare_event_clamping.1 [(3:Rat)/5, 3/5] (by norm_num)

theorem prod_one_sub_unit : ∀ qs : List Rat, (∀ q ∈ qs, 0 ≤ q ∧ q ≤ 1) →
    0 ≤ (qs.map (fun q => 1 - q)).prod ∧ (qs.map (fun q => 1 - q)).prod ≤ 1
  | [], _ => by simp
  | q :: qs, h => by
      have ih := prod_one_sub_unit qs (fun x hx => h x (List.mem_cons_of_mem q hx))
      have hq := h q (List.mem_cons_self _ _)
      simp only [List.map_cons, List.prod_cons]
      constructor
      · exact mul_nonneg (by linarith [hq.2]) ih.1
      · calc (1 - q) * (qs.map (fun q => 1 - q)).prod ≤ 1 * 1 :=
            mul_le_mul (by linarith [hq.1]) ih.2 ih.1 (by norm_num)
          _ = 1 := by norm_num

/-- C4: for every family of per-product probabilities in [0,1], the MCUB
computation 1 − ∏(1 − q) returns a value in [0,1]; in particular it
never exceeds one, so it is never clamped. -/
theorem mcub_in_unit_interval (qs : List Rat) (h : ∀ q ∈ qs, 0 ≤ q ∧ q ≤ 1) :
    0 ≤ mcub qs ∧ mcub qs ≤ 1 := by
  have h1 := prod_one_sub_unit qs h
  unfold mcub
  constructor
  · linarith [h1.2]
  · linarith [h1.1]

/-- Witness for C4 at the spec's scenario probabilities 0.6, 0.6. -/
theorem mcub_in_unit_interval_witness :
    0 ≤ mcub [(3:Rat)/5, 3/5] ∧ mcub [(3:Rat)/5, 3/5] ≤ 1 :=
  mcub_in_unit_interval [(3:Rat)/5, 3/5] (by norm_num)

/-! ## MEF elements and attributes

Modelled from the spec: the `element.h`/`element.cc` implementation is
not in the snapshot (only its unit tests are); the constructor
validation, the attribute container operations and attribute
inheritance are modelled from the spec's error-kind taxonomy
(LogicError for violated internal invariants such as empty names or
malformed attributes, ValidityError for model validation failures) and
the element test expectations. -/

/-- The error kinds of the spec's error taxonomy. -/
inductive Err where
  | logicError
  | validityError
  | ioError
  | analysisError
  deriving Repr, DecidableEq

/-- Is the string empty (an internal-invariant violation for names)? -/
def emptyStr (s : String) : Bool := s.data.isEmpty

/-- Does the name contain a dot (leading, trailing or interior), which
MEF reference rules forbid? -/
def containsDot (s : String) : Bool := s.data.contains '.'

/-- Modelled from the spec: constructing a named element checks that
the name is non-empty (LogicError otherwise) and free of dots
(ValidityError otherwise). -/
def mkNamedElement (name : String) : Except Err String :=
  if emptyStr name then .error .logicError
  else if containsDot name then .error .validityError
  else .ok name

/-- An element attribute: name, value and free-form type string. -/
structure Attribute where
  name : String
  value : String
  attrType : String
  deriving Repr, DecidableEq

/-- Modelled from the spec: constructing an Attribute with an empty
name or empty value is a LogicError; the type may be empty. -/
def mkAttribute (name value attrType : String) : Except Err Attribute :=
  if emptyStr name then .error .logicError
  else if emptyStr value then .error .logicError
  else .ok ⟨name, value, attrType⟩

/-- C7: constructing a named element with an empty name raises
LogicError while a name with a leading, trailing or interior dot raises
ValidityError; an Attribute with an empty name or empty value raises
LogicError; well-formed names and attributes construct without error. -/
theorem element_construction_errors :
    (mkNamedElement "" = .error .logicError)
    ∧ (mkNamedElement ".name" = .error .validityError)
    ∧ (mkNamedElement "na.me" = .error .validityError)
    ∧ (mkNamedElement "name." = .error .validityError)
    ∧ (mkNamedElement "name" = .ok "name")
    ∧ (mkAttribute "" "" "" = .error .logicError)
    ∧ (mkAttribute "name" "" "" = .error .logicError)
    ∧ (mkAttribute "" "value" "" = .error .logicError)
    ∧ (mkAttribute "name" "value" "" = .ok ⟨"name", "value", ""⟩)
    ∧ (∀ s : String, emptyStr s = false → containsDot s = false → mkNamedElement s = .ok s)
    ∧ (∀ nm v t : String, emptyStr nm = false → emptyStr v = false →
        mkAttribute nm v t = .ok ⟨nm, v, t⟩) := by
  refine ⟨rfl, rfl, rfl, rfl, rfl, rfl, rfl, rfl, rfl, ?_, ?_⟩
  · intro s h1 h2
    simp [mkNamedElement, h1, h2]
  · intro nm v t h1 h2
    simp [mkAttribute, h1, h2]

/-- Witness for C7: the test's well-formed element and attribute
construct without error. -/
theorem element_construction_errors_witness :
    mkNamedElement "na me" = .ok "na me"
    ∧ mkAttribute "impact" "0.1" "float" = .ok ⟨"impact", "0.1", "float"⟩ :=
  ⟨element_construction_errors.2.2.2.2.2.2.2.2.2.1 "na me" (by decide) (by decide),
   element_construction_errors.2.2.2.2.2.2.2.2.2.2 "impact" "0.1" "float"
     (by decide) (by decide)⟩

/-- A container of elements that also carries attributes. -/
structure Container where
  attributes : List Attribute
  deriving Repr, DecidableEq

/-- An element: its own attributes and the container it was added to. -/
structure Element where
  attributes : List Attribute
  container : Option Container
  deriving Repr, DecidableEq

/-- Find an attribute by name. -/
def findAttr (l : List Attribute) (nm : String) : Option Attribute :=
  l.find? (fun a => decide (a.name = nm))

/-- Number of stored attributes with the given name. -/
def countAttr (l : List Attribute) (nm : String) : Nat :=
  (l.filter (fun a => decide (a.name = nm))).length

/-- Modelled from the spec/tests: AddAttribute raises ValidityError if
an own attribute with the same name exists, leaving the element
unchanged; otherwise it stores the attribute. -/
def addAttribute (el : Element) (a : Attribute) : Except Err Unit × Element :=
  if (findAttr el.attributes a.name).isSome then (.error .validityError, el)
  else (.ok (), { el with attributes := el.attributes ++ [a] })

/-- Modelled from the spec/tests: SetAttribute replaces the stored
attribute with the same name, or inserts the attribute if absent. -/
def setAttribute (el : Element) (a : Attribute) : Element :=
  if (findAttr el.attributes a.name).isSome then
    { el with attributes := el.attributes.map (fun b => if b.name = a.name then a else b) }
  else { el with attributes := el.attributes ++ [a] }

/-- Modelled from the spec/tests: GetAttribute returns the own
attribute of that name if present, else the attribute inherited from
the container the element was added to. -/
def getAttribute (el : Element) (nm : String) : Option Attribute :=
  match findAttr el.attributes nm with
  | some a => some a
  | none => el.container.bind (fun ct => findAttr ct.attributes nm)

/-- Modelled from the spec/tests: RemoveAttribute removes and returns
only own attributes. -/
def removeAttribute (el : Element) (nm : String) : Option Attribute × Element :=
  match findAttr el.attributes nm with
  | some a => (some a, { el with attributes := el.attributes.filter (fun b => !(decide (b.name = nm))) })
  | none => (none, el)

/-- Adding the element to a container (Container::Add). -/
def addToContainer (el : Element) (ct : Container) : Element :=
  { el with container := some ct }

/-- Removing the element from its container (Container::Remove). -/
def removeFromContainer (el : Element) : Element :=
  { el with container := none }

theorem findAttr_none_countAttr {l : List Attribute} {nm : String}
    (h : findAttr l nm = none) : countAttr l nm = 0 := by
  unfold findAttr at h
  rw [List.find?_eq_none] at h
  unfold countAttr
  have h2 : l.filter (fun a => decide (a.name = nm)) = [] :=
    List.filter_eq_nil_iff.2 fun a ha => by simpa using h a ha
  rw [h2]
  rfl

theorem countAttr_append (l₁ l₂ : List Attribute) (nm : String) :
    countAttr (l₁ ++ l₂) nm = countAttr l₁ nm + countAttr l₂ nm := by
  unfold countAttr
  rw [List.filter_append, List.length_append]

theorem countAttr_map_set (l : List Attribute) (a : Attribute) :
    countAttr (l.map (fun b => if b.name = a.name then a else b)) a.name
      = countAttr l a.name := by
  unfold countAttr
  induction l with
  | nil => rfl
  | cons b bs ih =>
      by_cases h : b.name = a.name
      · simp [h, ih]
      · simp [List.filter_cons, h, ih]

theorem findAttr_some_count_pos {l : List Attribute} {nm : String}
    (h : (findAttr l nm).isSome = true) : 1 ≤ countAttr l nm := by
  rw [Option.isSome_iff_exists] at h
  obtain ⟨a, ha⟩ := h
  unfold findAttr at ha
  have hmem := List.mem_of_find?_eq_some ha
  have hpred := List.find?_some ha
  unfold countAttr
  have h2 : a ∈ l.filter (fun b => decide (b.name = nm)) := List.mem_filter.2 ⟨hmem, hpred⟩
  exact List.length_pos.2 fun hnil => by simp [hnil] at h2

theorem findAttr_map_set {l : List Attribute} {a : Attribute}
    (h : (findAttr l a.name).isSome = true) :
    findAttr (l.map (fun b => if b.name = a.name then a else b)) a.name = some a := by
  unfold findAttr at h ⊢
  induction l with
  | nil => simp at h
  | cons b bs ih =>
      by_cases hb : b.name = a.name
      · have hhead : (if b.name = a.name then a else b) = a := if_pos hb
        rw [List.map_cons, hhead]
        simp [List.find?_cons]
      · have hhead : (if b.name = a.name then a else b) = b := if_neg hb
        rw [List.map_cons, hhead]
        have h2 : (List.find? (fun x => decide (x.name = a.name)) bs).isSome = true := by
          simp only [List.find?_cons] at h
          simpa [hb] using h
        have h3 := ih h2
        simp only [List.find?_cons]
        simpa [hb] using h3

theorem findAttr_append_self (l : List Attribute) (a : Attribute)
    (h : findAttr l a.name = none) :
    findAttr (l ++ [a]) a.name = some a := by
  unfold findAttr at h ⊢
  rw [List.find?_append, h]
  simp

/-- C9: AddAttribute with a name already present among the element's
own attributes raises ValidityError leaving the attributes unchanged;
SetAttribute with an existing name replaces the stored value and keeps
exactly one attribute of that name (no duplicates are created). -/
theorem attribute_add_set_semantics (el : Element) (a : Attribute)
    (hinv : countAttr el.attributes a.name ≤ 1) :
    ((findAttr el.attributes a.name).isSome = true →
        addAttribute el a = (.error .validityError, el))
    ∧ ((findAttr el.attributes a.name).isSome = false →
        addAttribute el a = (.ok (), { el with attributes := el.attributes ++ [a] }))
    ∧ (countAttr (setAttribute el a).attributes a.name = 1)
    ∧ (findAttr (setAttribute el a).attributes a.name = some a) := by
  refine ⟨?_, ?_, ?_, ?_⟩
  · intro h
    simp [addAttribute, h]
  · intro h
    simp [addAttribute, h]
  · by_cases h : (findAttr el.attributes a.name).isSome = true
    · have h1 := findAttr_some_count_pos h
      simp only [setAttribute, h, if_true]
      rw [countAttr_map_set]
      omega
    · have h2 : findAttr el.attributes a.name = none := by
        cases hfa : findAttr el.attributes a.name
        · rfl
        · rw [hfa] at h
          simp at h
      simp only [setAttribute, h, Bool.false_eq_true, if_false]
      rw [countAttr_append, findAttr_none_countAttr h2]
      simp [countAttr]
  · by_cases h : (findAttr el.attributes a.name).isSome = true
    · simp only [setAttribute, h, if_true]
      exact findAttr_map_set h
    · have h2 : findAttr el.attributes a.name = none := by
        cases hfa : findAttr el.attributes a.name
        · rfl
        · rw [hfa] at h
          simp at h
      simp only [setAttribute, h, Bool.false_eq_true, if_false]
      exact findAttr_append_self el.attributes a h2

/-- Witness for C9 at the element test's data: an element owning
attribute ("impact", "0.1") updated with SetAttribute to value "0.2". -/
theorem attribute_add_set_semantics_witness :
    (addAttribute ⟨[⟨"impact", "0.1", "float"⟩], none⟩ ⟨"impact", "0.2", "float"⟩
        = (.error .validityError, ⟨[⟨"impact", "0.1", "float"⟩], none⟩))
    ∧ countAttr (setAttribute ⟨[⟨"impact", "0.1", "float"⟩], none⟩
        ⟨"impact", "0.2", "float"⟩).attributes "impact" = 1 :=
  ⟨(attribute_add_set_semantics ⟨[⟨"impact", "0.1", "float"⟩], none⟩
      ⟨"impact", "0.2", "float"⟩ (by decide)).1 (by decide),
   (attribute_add_set_semantics ⟨[⟨"impact", "0.1", "float"⟩], none⟩
      ⟨"impact", "0.2", "float"⟩ (by decide)).2.2.1⟩

theorem findAttr_filter_out (l : List Attribute) (nm : String) :
    findAttr (l.filter (fun b => !(decide (b.name = nm)))) nm = none := by
  unfold findAttr
  rw [List.find?_eq_none]
  intro a ha
  have h2 := (List.mem_filter.1 ha).2
  simp only [Bool.not_eq_true', decide_eq_false_iff_not] at h2
  simpa using h2

/-- C10: GetAttribute on an element with no own attribute of the name
returns the container's attribute (inheritance); an own attribute
shadows the inherited one; RemoveAttribute removes and returns only own
attributes (none when only an inherited one exists), after which the
inherited attribute is visible again; and removing the element from the
container ends the inheritance. -/
theorem attribute_inheritance (el : Element) (ct : Container) (nm : String) :
    (findAttr el.attributes nm = none →
      getAttribute (addToContainer el ct) nm = findAttr ct.attributes nm)
    ∧ (∀ a, findAttr el.attributes nm = some a →
        getAttribute (addToContainer el ct) nm = some a)
    ∧ (findAttr el.attributes nm = none →
        removeAttribute (addToContainer el ct) nm = (none, addToContainer el ct))
    ∧ ((removeAttribute (addToContainer el ct) nm).1 = findAttr el.attributes nm)
    ∧ (getAttribute ((removeAttribute (addToContainer el ct) nm).2) nm
        = findAttr ct.attributes nm)
    ∧ (getAttribute (removeFromContainer (addToContainer el ct)) nm
        = findAttr el.attributes nm) := by
  refine ⟨?_, ?_, ?_, ?_, ?_, ?_⟩
  · intro h
    simp [getAttribute, addToContainer, h]
  · intro a h
    simp [getAttribute, addToContainer, h]
  · intro h
    simp [removeAttribute, addToContainer, h]
  · cases h : findAttr el.attributes nm
    · simp [removeAttribute, addToContainer, h]
    · simp [removeAttribute, addToContainer, h]
  · cases h : findAttr el.attributes nm with
    | none =>
        simp [removeAttribute, addToContainer, getAttribute, h]
    | some a =>
        simp only [removeAttribute, addToContainer, h]
        simp [getAttribute, findAttr_filter_out]
  · cases h : findAttr el.attributes nm with
    | none => simp [getAttribute, removeFromContainer, addToContainer, h]
    | some a => simp [getAttribute, removeFromContainer, addToContainer, h]

/-- Witness for C10 at the element test's data: container attribute
("impact", "42") inherited by an element with no own attributes. -/
theorem attribute_inheritance_witness :
    getAttribute (addToContainer ⟨[], none⟩ ⟨[⟨"impact", "42", ""⟩]⟩) "impact"
        = findAttr [⟨"impact", "42", ""⟩] "impact"
    ∧ removeAttribute (addToContainer ⟨[], none⟩ ⟨[⟨"impact", "42", ""⟩]⟩) "impact"
        = (none, addToContainer ⟨[], none⟩ ⟨[⟨"impact", "42", ""⟩]⟩)
    ∧ getAttribute (removeFromContainer
        (addToContainer ⟨[], none⟩ ⟨[⟨"impact", "42", ""⟩]⟩)) "impact" = none :=
  ⟨(attribute_inheritance ⟨[], none⟩ ⟨[⟨"impact", "42", ""⟩]⟩ "impact").1 rfl,
   (attribute_inheritance ⟨[], none⟩ ⟨[⟨"impact", "42", ""⟩]⟩ "impact").2.2.1 rfl,
   (attribute_inheritance ⟨[], none⟩ ⟨[⟨"impact", "42", ""⟩]⟩ "impact").2.2.2.2.2⟩

/-! ## GUI launcher exit codes

Embedded from `scramgui.cpp` (in the snapshot): `parseArguments`
returns 1 for an errored option state, -1 for information-only
invocations such as `--help`, and 0 otherwise; `launchGui` maps these
to the process exit code. -/

/-- A command-line token as seen by the boost options parser. -/
inductive Arg where
  | helpOpt
  | configFile (path : String)
  | inputFile (path : String)
  | badOpt (tok : String)
  deriving Repr, DecidableEq

/-- Does option parsing fail (an unrecognized option is present)? -/
def parseFails (args : List Arg) : Bool :=
  args.any fun a => match a with | .badOpt _ => true | _ => false

/-- Is the information-only help option present? -/
def hasHelp (args : List Arg) : Bool :=
  args.any fun a => match a with | .helpOpt => true | _ => false

/-- `parseArguments` from scramgui.cpp: 1 for an errored state, -1 for
an information-only state like help, 0 for success. -/
def parseArguments (args : List Arg) : Int :=
  if parseFails args then 1
  else if hasHelp args then -1
  else 0

/-- `launchGui` from scramgui.cpp: with command-line arguments present,
a parse error exits with 1 and an information-only invocation exits
with 0; otherwise the Qt application's exit code is returned. -/
def launchGui (args : List Arg) (appExitCode : Int) : Int :=
  if args.isEmpty then appExitCode
  else
    let ret := parseArguments args
    if ret = 1 then 1
    else if ret = -1 then 0
    else appExitCode

/-- C8: when command-line option parsing fails the program terminates
with exit code 1 (input error); when the invocation only requests
information such as help, it terminates with exit code 0 (success). -/
theorem launcher_exit_codes (args : List Arg) (appExitCode : Int) :
    (parseFails args = true → launchGui args appExitCode = 1)
    ∧ (parseFails args = false → hasHelp args = true → launchGui args appExitCode = 0) := by
  constructor
  · intro h
    have hne : args.isEmpty = false := by
      cases args
      · simp [parseFails] at h
      · rfl
    simp [launchGui, hne, parseArguments, h]
  · intro h1 h2
    have hne : args.isEmpty = false := by
      cases args
      · simp [hasHelp] at h2
      · rfl
    simp [launchGui, hne, parseArguments, h1, h2]

/-- Witness for C8: a bad option exits with 1; `--help` exits with 0. -/
theorem launcher_exit_codes_witness :
    launchGui [Arg.badOpt "--frob"] 5 = 1 ∧ launchGui [Arg.helpOpt] 5 = 0 :=
  ⟨(launcher_exit_codes [Arg.badOpt "--frob"] 5).1 rfl,
   (launcher_exit_codes [Arg.helpOpt] 5).2 rfl rfl⟩

/-! ## Model serialization round trip

Modelled from the spec: the initializer and `Serialize` sources are not
in the snapshot (only the serialization test is); the in-memory model —
basic events carrying the spec's probability expressions, house events,
and gates over the spec's eleven connectives with signed argument
references — the serialized document tree, the loader and the schema
validator are modelled from the spec's data model and its round-trip
law. -/

/-- A typed value stored in a serialized document attribute. -/
inductive XVal where
  | str (s : String)
  | num (q : Rat)
  | flag (b : Bool)
  deriving Repr, DecidableEq

/-- A serialized document node: the in-memory form of the emitted XML
element tree. -/
inductive XNode where
  | elem (tag : String) (attrs : List (String × XVal)) (children : List XNode)

/-- A gate connective: the spec's full set AND, OR, ATLEAST(k), XOR,
NOT, NAND, NOR, NULL, IMPLY, IFF and CONSTANT. -/
inductive Connective where
  | andc
  | orc
  | atleastc (k : Nat)
  | xorc
  | notc
  | nandc
  | norc
  | nullc
  | implyc
  | iffc
  | constantc (b : Bool)
  deriving Repr, DecidableEq

/-- A probability expression of the model input interface: constant,
exponential with two or with four parameters, uniform, normal,
log-normal, Weibull, or histogram, each a pure function of mission
time. -/
inductive ProbExpr where
  | const (q : Rat)
  | exponential (lambda : Rat)
  | exponential4 (p1 p2 p3 p4 : Rat)
  | uniform (lo hi : Rat)
  | normal (mu sigma : Rat)
  | lognormal (mu sigma : Rat)
  | weibull (shape scale : Rat)
  | histogram (bins : List (Rat × Rat))
  deriving Repr, DecidableEq

/-- A basic event definition: name and probability expression. -/
structure BasicEventDef where
  name : String
  probability : ProbExpr
  deriving Repr, DecidableEq

/-- A house event definition: name and fixed Boolean state. -/
structure HouseEventDef where
  name : String
  state : Bool
  deriving Repr, DecidableEq

/-- A signed argument reference: a positive or negated reference to a
gate or basic/house event. -/
structure ArgRef where
  negated : Bool
  target : String
  deriving Repr, DecidableEq

/-- A gate definition: name, connective and signed argument
references. -/
structure GateDef where
  name : String
  connective : Connective
  args : List ArgRef
  deriving Repr, DecidableEq

/-- Modelled from the spec: the in-memory risk-analysis model produced
by the initializer. -/
structure Model where
  name : String
  basicEvents : List BasicEventDef
  houseEvents : List HouseEventDef
  gates : List GateDef
  deriving Repr, DecidableEq

/-- A valid MEF name: non-empty and free of dots. -/
def validNameStr (s : String) : Bool := !(emptyStr s) && !(containsDot s)

/-- Modelled from the spec: a constant probability must lie in [0,1];
distribution expressions are evaluated against mission time
downstream. -/
def validProbExpr : ProbExpr → Bool
  | .const q => decide (0 ≤ q) && decide (q ≤ 1)
  | _ => true

/-- Modelled from the spec: model validation — names are well formed
everywhere and constant probabilities lie in [0,1]. -/
def Model.valid (m : Model) : Bool :=
  validNameStr m.name
    && m.basicEvents.all (fun b => validNameStr b.name && validProbExpr b.probability)
    && m.houseEvents.all (fun h => validNameStr h.name)
    && m.gates.all (fun g => validNameStr g.name
        && g.args.all (fun r => validNameStr r.target))

/-- Serialization of one histogram bin. -/
def serBin (b : Rat × Rat) : XNode :=
  .elem "bin" [("boundary", .num b.1), ("weight", .num b.2)] []

/-- Serialization of a probability expression. -/
def serProbExpr : ProbExpr → XNode
  | .const q => .elem "float" [("value", .num q)] []
  | .exponential l => .elem "exponential" [("lambda", .num l)] []
  | .exponential4 p1 p2 p3 p4 =>
      .elem "GLM" [("p1", .num p1), ("p2", .num p2), ("p3", .num p3), ("p4", .num p4)] []
  | .uniform lo hi => .elem "uniform-deviate" [("lower", .num lo), ("upper", .num hi)] []
  | .normal mu sigma => .elem "normal-deviate" [("mean", .num mu), ("sigma", .num sigma)] []
  | .lognormal mu sigma =>
      .elem "lognormal-deviate" [("mean", .num mu), ("sigma", .num sigma)] []
  | .weibull shape scale =>
      .elem "Weibull" [("shape", .num shape), ("scale", .num scale)] []
  | .histogram bins => .elem "histogram" [] (bins.map serBin)

/-- Serialization of one basic event with its probability expression. -/
def serBasicEvent (b : BasicEventDef) : XNode :=
  .elem "define-basic-event" [("name", .str b.name)] [serProbExpr b.probability]

/-- Serialization of one house event. -/
def serHouseEvent (h : HouseEventDef) : XNode :=
  .elem "define-house-event" [("name", .str h.name), ("state", .flag h.state)] []

/-- Serialization of a gate's connective into document attributes. -/
def serConnective : Connective → List (String × XVal)
  | .andc => [("type", .str "and")]
  | .orc => [("type", .str "or")]
  | .atleastc k => [("type", .str "atleast"), ("min", .num (k : Rat))]
  | .xorc => [("type", .str "xor")]
  | .notc => [("type", .str "not")]
  | .nandc => [("type", .str "nand")]
  | .norc => [("type", .str "nor")]
  | .nullc => [("type", .str "null")]
  | .implyc => [("type", .str "imply")]
  | .iffc => [("type", .str "iff")]
  | .constantc b => [("type", .str "constant"), ("value", .flag b)]

/-- Serialization of one signed argument reference. -/
def serArg (r : ArgRef) : XNode :=
  .elem "arg" [("ref", .str r.target), ("negated", .flag r.negated)] []

/-- Serialization of one gate with its signed argument references. -/
def serGate (g : GateDef) : XNode :=
  .elem "define-gate" (("name", XVal.str g.name) :: serConnective g.connective)
    (g.args.map serArg)

/-- `Serialize` (modelled from the spec): emit the loaded model as a
document tree. -/
def Serialize (m : Model) : XNode :=
  .elem "model" [("name", .str m.name)]
    [.elem "basic-events" [] (m.basicEvents.map serBasicEvent),
     .elem "house-events" [] (m.houseEvents.map serHouseEvent),
     .elem "gates" [] (m.gates.map serGate)]

/-- Parse a list of nodes, failing on the first malformed node. -/
def parseList {α : Type} (f : XNode → Except Err α) : List XNode → Except Err (List α)
  | [] => .ok []
  | x :: xs =>
      match f x, parseList f xs with
      | .ok a, .ok as => .ok (a :: as)
      | .error e, _ => .error e
      | .ok _, .error e => .error e

/-- Parse one histogram bin. -/
def parseBin : XNode → Except Err (Rat × Rat)
  | .elem "bin" [("boundary", .num x), ("weight", .num y)] [] => .ok (x, y)
  | _ => .error .validityError

/-- Parse a probability expression node. -/
def parseProbExpr : XNode → Except Err ProbExpr
  | .elem "float" [("value", .num q)] [] => .ok (.const q)
  | .elem "exponential" [("lambda", .num l)] [] => .ok (.exponential l)
  | .elem "GLM" [("p1", .num p1), ("p2", .num p2), ("p3", .num p3), ("p4", .num p4)] [] =>
      .ok (.exponential4 p1 p2 p3 p4)
  | .elem "uniform-deviate" [("lower", .num lo), ("upper", .num hi)] [] =>
      .ok (.uniform lo hi)
  | .elem "normal-deviate" [("mean", .num mu), ("sigma", .num sigma)] [] =>
      .ok (.normal mu sigma)
  | .elem "lognormal-deviate" [("mean", .num mu), ("sigma", .num sigma)] [] =>
      .ok (.lognormal mu sigma)
  | .elem "Weibull" [("shape", .num shape), ("scale", .num scale)] [] =>
      .ok (.weibull shape scale)
  | .elem "histogram" [] bins =>
      match parseList parseBin bins with
      | .ok bs => .ok (.histogram bs)
      | .error e => .error e
  | _ => .error .validityError

/-- Parse one basic-event node. -/
def parseBasicEvent : XNode → Except Err BasicEventDef
  | .elem "define-basic-event" [("name", .str nm)] [e] =>
      match parseProbExpr e with
      | .ok p => .ok ⟨nm, p⟩
      | .error er => .error er
  | _ => .error .validityError

/-- Parse one house-event node. -/
def parseHouseEvent : XNode → Except Err HouseEventDef
  | .elem "define-house-event" [("name", .str nm), ("state", .flag b)] [] => .ok ⟨nm, b⟩
  | _ => .error .validityError

/-- Map a keyword connective type string back to the connective. -/
def connectiveOfKeyword (t : String) : Except Err Connective :=
  if t = "and" then .ok .andc
  else if t = "or" then .ok .orc
  else if t = "xor" then .ok .xorc
  else if t = "not" then .ok .notc
  else if t = "nand" then .ok .nandc
  else if t = "nor" then .ok .norc
  else if t = "null" then .ok .nullc
  else if t = "imply" then .ok .implyc
  else if t = "iff" then .ok .iffc
  else .error .validityError

/-- Parse a gate connective from document attributes. -/
def parseConnective : List (String × XVal) → Except Err Connective
  | [("type", .str t)] => connectiveOfKeyword t
  | [("type", .str "atleast"), ("min", .num q)] =>
      if _hq : q.den = 1 ∧ 0 ≤ q.num then .ok (.atleastc q.num.toNat)
      else .error .validityError
  | [("type", .str "constant"), ("value", .flag b)] => .ok (.constantc b)
  | _ => .error .validityError

/-- Parse one signed argument reference. -/
def parseArg : XNode → Except Err ArgRef
  | .elem "arg" [("ref", .str t), ("negated", .flag n)] [] => .ok ⟨n, t⟩
  | _ => .error .validityError

/-- Parse one gate node. -/
def parseGate : XNode → Except Err GateDef
  | .elem "define-gate" (("name", XVal.str nm) :: rest) children =>
      match parseConnective rest, parseList parseArg children with
      | .ok conn, .ok args => .ok ⟨nm, conn, args⟩
      | .error e, _ => .error e
      | .ok _, .error e => .error e
  | _ => .error .validityError

/-- The loader (modelled from the spec): parse the document into a
model and validate it. -/
def load (doc : XNode) : Except Err Model :=
  match doc with
  | .elem "model" [("name", .str nm)]
      [.elem "basic-events" [] bes, .elem "house-events" [] hes, .elem "gates" [] gs] =>
      match parseList parseBasicEvent bes, parseList parseHouseEvent hes,
          parseList parseGate gs with
      | .ok b, .ok h, .ok g =>
          if (Model.mk nm b h g).valid then .ok (Model.mk nm b h g)
          else .error .validityError
      | .error e, _, _ => .error e
      | .ok _, .error e, _ => .error e
      | .ok _, .ok _, .error e => .error e
  | _ => .error .validityError

/-- Schema shape of one histogram bin. -/
def validBinNode : XNode → Bool
  | .elem "bin" [("boundary", .num _), ("weight", .num _)] [] => true
  | _ => false

/-- Schema shape of one probability expression. -/
def validProbExprNode : XNode → Bool
  | .elem "float" [("value", .num _)] [] => true
  | .elem "exponential" [("lambda", .num _)] [] => true
  | .elem "GLM" [("p1", .num _), ("p2", .num _), ("p3", .num _), ("p4", .num _)] [] => true
  | .elem "uniform-deviate" [("lower", .num _), ("upper", .num _)] [] => true
  | .elem "normal-deviate" [("mean", .num _), ("sigma", .num _)] [] => true
  | .elem "lognormal-deviate" [("mean", .num _), ("sigma", .num _)] [] => true
  | .elem "Weibull" [("shape", .num _), ("scale", .num _)] [] => true
  | .elem "histogram" [] bins => bins.all validBinNode
  | _ => false

/-- Schema shape of one serialized basic event. -/
def validBasicEventNode : XNode → Bool
  | .elem "define-basic-event" [("name", .str _)] [e] => validProbExprNode e
  | _ => false

/-- Schema shape of one serialized house event. -/
def validHouseEventNode : XNode → Bool
  | .elem "define-house-event" [("name", .str _), ("state", .flag _)] [] => true
  | _ => false

/-- Schema shape of one signed gate argument. -/
def validArgNode : XNode → Bool
  | .elem "arg" [("ref", .str _), ("negated", .flag _)] [] => true
  | _ => false

/-- Schema shape of one serialized gate. -/
def validGateNode : XNode → Bool
  | .elem "define-gate" (("name", XVal.str _) :: rest) children =>
      (match parseConnective rest with
       | .ok _ => true
       | .error _ => false)
        && children.all validArgNode
  | _ => false

/-- Modelled from the spec: the schema validation of a serialized
document (the RELAX-NG check of the serialization test). -/
def validate : XNode → Bool
  | .elem "model" [("name", .str _)]
      [.elem "basic-events" [] bes, .elem "house-events" [] hes, .elem "gates" [] gs] =>
      bes.all validBasicEventNode && hes.all validHouseEventNode && gs.all validGateNode
  | _ => false

theorem parseList_map_id {α : Type} (f : XNode → Except Err α) (ser : α → XNode)
    (l : List α) (h : ∀ a ∈ l, f (ser a) = .ok a) : parseList f (l.map ser) = .ok l := by
  induction l with
  | nil => rfl
  | cons a as ih =>
      have h1 := h a (List.mem_cons_self _ _)
      have h2 := ih fun b hb => h b (List.mem_cons_of_mem a hb)
      simp [parseList, h1, h2]

set_option maxHeartbeats 2000000 in
theorem parseProbExpr_serProbExpr (e : ProbExpr) :
    parseProbExpr (serProbExpr e) = .ok e := by
  cases e with
  | histogram bins =>
      have hb : parseList parseBin (bins.map serBin) = .ok bins :=
        parseList_map_id parseBin serBin bins fun b _ => rfl
      simp [serProbExpr, parseProbExpr, hb]
  | _ => rfl

theorem parseBasicEvent_serBasicEvent (b : BasicEventDef) :
    parseBasicEvent (serBasicEvent b) = .ok b := by
  obtain ⟨nm, pe⟩ := b
  simp [serBasicEvent, parseBasicEvent, parseProbExpr_serProbExpr pe]

set_option maxHeartbeats 2000000 in
theorem parseConnective_serConnective (conn : Connective) :
    parseConnective (serConnective conn) = .ok conn := by
  cases conn with
  | atleastc k =>
      simp only [serConnective, parseConnective]
      rw [dif_pos ⟨Rat.den_natCast k, by simp⟩]
      simp
  | _ => rfl

theorem parseGate_serGate (g : GateDef) : parseGate (serGate g) = .ok g := by
  obtain ⟨nm, conn, args⟩ := g
  have hargs : parseList parseArg (args.map serArg) = .ok args :=
    parseList_map_id parseArg serArg args fun a _ => rfl
  simp [serGate, parseGate, parseConnective_serConnective conn, hargs]

theorem load_Serialize (m : Model) (hv : m.valid = true) : load (Serialize m) = .ok m := by
  obtain ⟨nm, bes, hes, gs⟩ := m
  have h1 : parseList parseBasicEvent (bes.map serBasicEvent) = .ok bes :=
    parseList_map_id parseBasicEvent serBasicEvent bes
      fun b _ => parseBasicEvent_serBasicEvent b
  have h2 : parseList parseHouseEvent (hes.map serHouseEvent) = .ok hes :=
    parseList_map_id parseHouseEvent serHouseEvent hes fun h _ => rfl
  have h3 : parseList parseGate (gs.map serGate) = .ok gs :=
    parseList_map_id parseGate serGate gs fun g _ => parseGate_serGate g
  simp [Serialize, load, h1, h2, h3, hv]

set_option maxHeartbeats 2000000 in
theorem validProbExprNode_ser (e : ProbExpr) : validProbExprNode (serProbExpr e) = true := by
  cases e with
  | histogram bins =>
      have hb : (bins.map serBin).all validBinNode = true := by
        induction bins with
        | nil => rfl
        | cons b bs ih =>
            simp only [List.map_cons, List.all_cons, serBin, validBinNode, Bool.true_and, ih]
      simp [serProbExpr, validProbExprNode, hb]
  | _ => rfl

theorem validGateNode_serGate (g : GateDef) : validGateNode (serGate g) = true := by
  obtain ⟨nm, conn, args⟩ := g
  have hargs : (args.map serArg).all validArgNode = true := by
    induction args with
    | nil => rfl
    | cons a as ih =>
        simp only [List.map_cons, List.all_cons, serArg, validArgNode, Bool.true_and, ih]
  cases hc : parseConnective (serConnective conn) with
  | error e => rw [parseConnective_serConnective conn] at hc; exact absurd hc (by simp)
  | ok c => simp [serGate, validGateNode, hc, hargs]

theorem validate_Serialize (m : Model) : validate (Serialize m) = true := by
  obtain ⟨nm, bes, hes, gs⟩ := m
  have h1 : (bes.map serBasicEvent).all validBasicEventNode = true := by
    induction bes with
    | nil => rfl
    | cons b bs ih =>
        simp only [List.map_cons, List.all_cons, serBasicEvent, validBasicEventNode,
          validProbExprNode_ser, Bool.true_and, ih]
  have h2 : (hes.map serHouseEvent).all validHouseEventNode = true := by
    induction hes with
    | nil => rfl
    | cons h hs ih =>
        simp only [List.map_cons, List.all_cons, serHouseEvent, validHouseEventNode,
          Bool.true_and, ih]
  have h3 : (gs.map serGate).all validGateNode = true := by
    induction gs with
    | nil => rfl
    | cons g gsx ih => simp [validGateNode_serGate g, ih]
  simp [Serialize, validate, h1, h2, h3]

/-- C6: for every valid model, serializing and loading the serialized
document yields a structurally equal model, and the serialized document
validates against the report schema without error. -/
theorem serialization_round_trip (m : Model) (hv : m.valid = true) :
    load (Serialize m) = .ok m ∧ validate (Serialize m) = true :=
  ⟨load_Serialize m hv, validate_Serialize m⟩

/-- Witness for C6: a small model exercising signed references,
several connectives and several probability expressions round-trips. -/
theorem serialization_round_trip_witness :
    load (Serialize ⟨"two-train",
        [⟨"pump-one", .const (mkRat 1 10)⟩, ⟨"pump-two", .exponential (mkRat 3 1000)⟩,
         ⟨"valve", .histogram [(mkRat 1 1, mkRat 1 2), (mkRat 2 1, mkRat 1 2)]⟩,
         ⟨"motor", .weibull (mkRat 2 1) (mkRat 5 1)⟩],
        [⟨"maintenance", false⟩],
        [⟨"top", .andc, [⟨false, "pump-one"⟩, ⟨true, "pump-two"⟩]⟩,
         ⟨"vote", .atleastc 2, [⟨false, "pump-one"⟩, ⟨false, "valve"⟩, ⟨false, "motor"⟩]⟩,
         ⟨"aux", .nandc, [⟨false, "maintenance"⟩, ⟨true, "valve"⟩]⟩,
         ⟨"fixed", .constantc true, []⟩]⟩)
      = .ok ⟨"two-train",
        [⟨"pump-one", .const (mkRat 1 10)⟩, ⟨"pump-two", .exponential (mkRat 3 1000)⟩,
         ⟨"valve", .histogram [(mkRat 1 1, mkRat 1 2), (mkRat 2 1, mkRat 1 2)]⟩,
         ⟨"motor", .weibull (mkRat 2 1) (mkRat 5 1)⟩],
        [⟨"maintenance", false⟩],
        [⟨"top", .andc, [⟨false, "pump-one"⟩, ⟨true, "pump-two"⟩]⟩,
         ⟨"vote", .atleastc 2, [⟨false, "pump-one"⟩, ⟨false, "valve"⟩, ⟨false, "motor"⟩]⟩,
         ⟨"aux", .nandc, [⟨false, "maintenance"⟩, ⟨true, "valve"⟩]⟩,
         ⟨"fixed", .constantc true, []⟩]⟩ :=
  (serialization_round_trip _ (by decide)).1

end Scram
